import Mathlib

/-!
Verification of the cached persistent vector from `near-sdk/src/collections/vec/mod.rs`.

The vector stores one element per logical index in a key-value storage
substrate, batching reads and writes through an in-memory cache of
`CacheEntry` values.  Machine integers (`u32` indices and length) are
modelled as `Nat` with explicit `% 2^32` bounds where they matter; byte
strings are `List Nat`; fatal `env::panic` calls become a `panic`
constructor of the result type, which also records the trace of storage
operations the call performed before returning or aborting.
-/

namespace NearVec

/-- Byte strings (storage keys, serialized values). -/
abbrev Bytes := List Nat

/-- `u32::MAX` = 2^32 - 1. -/
def u32Max : Nat := 4294967295

/-- 2^32, the number of distinct `u32` values. -/
def u32Mod : Nat := 4294967296

/-- `u32::to_le_bytes`: the four little-endian bytes of a 32-bit index. -/
def u32ToLeBytes (i : Nat) : Bytes :=
  [i % 256, i / 256 % 256, i / 65536 % 256, i / 16777216 % 256]

/-- `append_slice` from `crate::collections`: concatenation of byte strings. -/
def append_slice (a b : Bytes) : Bytes := a ++ b

/-- Modelled from the spec: the key-value storage substrate (`env::storage_read`
etc. are not under `src/`).  Storage is a finite association from byte keys to
byte values; spec section 6 gives the interface `read`, `write`, `remove`. -/
abbrev Storage := List (Bytes × Bytes)

/-- `env::storage_read`: value at the first (unique) occurrence of the key. -/
def storageRead (s : Storage) (k : Bytes) : Option Bytes :=
  match s with
  | [] => none
  | (k', v) :: rest => if k' = k then some v else storageRead rest k

/-- `env::storage_write`: replace the value at the key, or append a fresh pair. -/
def storageWrite (s : Storage) (k v : Bytes) : Storage :=
  match s with
  | [] => [(k, v)]
  | (k', v') :: rest => if k' = k then (k, v) :: rest else (k', v') :: storageWrite rest k v

/-- `env::storage_remove`: delete every pair whose key matches. -/
def storageRemove (s : Storage) (k : Bytes) : Storage :=
  match s with
  | [] => []
  | (k', v') :: rest => if k' = k then storageRemove rest k else (k', v') :: storageRemove rest k

/-- Modelled from the spec: `EntryState` (declared in the crate root, not under
`src/`); spec section 4.2 gives the two states `Cached` and `Modified`. -/
inductive EntryState where
  | cached
  | modified
deriving DecidableEq

/-- Modelled from the spec: `CacheEntry<T>` (declared in the crate root, not
under `src/`); spec section 4.2: an optional value plus an `EntryState`. -/
structure CacheEntry (T : Type) where
  value : Option T
  state : EntryState
deriving DecidableEq

/-- Modelled from the spec, section 4.2: `new_cached(v)` constructs `Cached(v)`. -/
def CacheEntry.new_cached {T : Type} (v : Option T) : CacheEntry T := ⟨v, .cached⟩

/-- Modelled from the spec, section 4.2: `new_modified(v)` constructs `Modified(v)`. -/
def CacheEntry.new_modified {T : Type} (v : Option T) : CacheEntry T := ⟨v, .modified⟩

/-- Modelled from the spec, section 4.2: `replace(new_value)` returns the
previous value and collapses any prior state to `Modified(new_value)`. -/
def CacheEntry.replace {T : Type} (e : CacheEntry T) (v : Option T) : Option T × CacheEntry T :=
  (e.value, ⟨v, .modified⟩)

/-- Modelled from the spec, section 4.2: `replace_state` swaps in a new state,
keeping the value (used by `flush` to demote `Modified` to `Cached`). -/
def CacheEntry.replace_state {T : Type} (e : CacheEntry T) (s : EntryState) : CacheEntry T :=
  ⟨e.value, s⟩

/-- The cache: `BTreeMap<u32, Box<CacheEntry<T>>>` as an association list kept
in strictly ascending key order. -/
abbrev Cache (T : Type) := List (Nat × CacheEntry T)

/-- First (unique) entry at the given index, mirroring `BTreeMap` lookup. -/
def cacheGet {T : Type} (c : Cache T) (i : Nat) : Option (CacheEntry T) :=
  match c with
  | [] => none
  | (j, e) :: rest => if j = i then some e else cacheGet rest i

/-- Ordered insert-or-replace, mirroring `BTreeMap` insertion / entry API. -/
def cacheInsert {T : Type} (c : Cache T) (i : Nat) (e : CacheEntry T) : Cache T :=
  match c with
  | [] => [(i, e)]
  | (j, e') :: rest =>
    if i < j then (i, e) :: (j, e') :: rest
    else if i = j then (i, e) :: rest
    else (j, e') :: cacheInsert rest i e

/-- `BTreeMap`'s structural invariant: keys strictly ascending (hence unique). -/
def cacheSortedB {T : Type} : Cache T → Bool
  | [] => true
  | [_] => true
  | a :: b :: rest => decide (a.1 < b.1) && cacheSortedB (b :: rest)

/-- Modelled from the spec: the borsh serialization codec (external
collaborator, spec section 6): `encode` may fail (fatal), `decode` may fail
(fatal). -/
structure Codec (T : Type) where
  ser : T → Option Bytes
  deser : Bytes → Option T

/-- The `Vector<T>` struct: persisted `len` and `prefix` plus the in-memory
cache (`#[borsh_skip]`, so never persisted). -/
structure Vector (T : Type) where
  len : Nat
  pfx : Bytes
  cache : Cache T
deriving DecidableEq

/-- `Vector::new(prefix)`: zero length, empty cache. -/
def Vector.new {T : Type} (pfx : Bytes) : Vector T := ⟨0, pfx, []⟩

/-- Reconstituting a `Vector` from its persisted state (the derived
`BorshDeserialize`): `len` and `prefix` are read back, the `#[borsh_skip]`
cache always starts empty. -/
def Vector.reconstruct {T : Type} (pfx : Bytes) (len : Nat) : Vector T := ⟨len, pfx, []⟩

/-- `Vector::index_to_lookup_key`: prefix concatenated with the index's
little-endian bytes. -/
def index_to_lookup_key (pfx : Bytes) (i : Nat) : Bytes :=
  append_slice pfx (u32ToLeBytes i)

/-- The four fatal `env::panic` conditions of this module. -/
inductive PanicKind where
  | indexOutOfBounds
  | inconsistentState
  | serialization
  | deserialization
deriving DecidableEq

/-- One storage-substrate call, as recorded in an operation's trace. -/
inductive StorageOp where
  | read (key : Bytes)
  | write (key value : Bytes)
  | remove (key : Bytes)
deriving DecidableEq

/-- Result of running one vector operation: either a value together with the
updated vector, updated storage and the trace of storage calls made, or a
fatal panic together with the trace of storage calls made before aborting. -/
inductive Res (T α : Type) where
  | ok (val : α) (st : Vector T) (sto : Storage) (tr : List StorageOp)
  | fatal (kind : PanicKind) (tr : List StorageOp)
deriving DecidableEq

/-- `Vector::load`: return the cache entry at `index`, populating the cache
from storage on a miss (`new_cached` of the decoded value, or of `None` when
the key is absent).  Decode failure is fatal. -/
def load {T : Type} (cd : Codec T) (st : Vector T) (sto : Storage) (i : Nat) :
    Res T (CacheEntry T) :=
  match cacheGet st.cache i with
  | some e => .ok e st sto []
  | none =>
    let key := index_to_lookup_key st.pfx i
    match storageRead sto key with
    | some raw =>
      match cd.deser raw with
      | some v =>
        let e := CacheEntry.new_cached (some v)
        .ok e { st with cache := cacheInsert st.cache i e } sto [.read key]
      | none => .fatal .deserialization [.read key]
    | none =>
      let e : CacheEntry T := CacheEntry.new_cached none
      .ok e { st with cache := cacheInsert st.cache i e } sto [.read key]

/-- `Vector::get`: the loaded entry's value (no bounds check in the source). -/
def get {T : Type} (cd : Codec T) (st : Vector T) (sto : Storage) (i : Nat) :
    Res T (Option T) :=
  match load cd st sto i with
  | .ok e st' sto' tr => .ok e.value st' sto' tr
  | .fatal k tr => .fatal k tr

/-- `Vector::set`: out-of-bounds is fatal; otherwise the cache entry at the
index becomes `Modified(Some value))` (via `replace` on an occupied entry, or
`new_modified` on a vacant one). -/
def set {T : Type} (st : Vector T) (sto : Storage) (i : Nat) (v : T) : Res T Unit :=
  if st.len ≤ i then .fatal .indexOutOfBounds []
  else
    match cacheGet st.cache i with
    | some e => .ok () { st with cache := cacheInsert st.cache i (e.replace (some v)).2 } sto []
    | none => .ok () { st with cache := cacheInsert st.cache i (CacheEntry.new_modified (some v)) } sto []

/-- `Vector::push`: fatal when `len` has reached `u32::MAX`; otherwise
increment `len` and `set` the old last index. -/
def push {T : Type} (st : Vector T) (sto : Storage) (v : T) : Res T Unit :=
  if u32Max ≤ st.len then .fatal .indexOutOfBounds []
  else set { st with len := st.len + 1 } sto st.len v

/-- `Vector::extend`: push each element in order. -/
def extend {T : Type} (st : Vector T) (sto : Storage) (vs : List T) : Res T Unit :=
  match vs with
  | [] => .ok () st sto []
  | v :: rest =>
    match push st sto v with
    | .ok _ st1 sto1 tr1 =>
      match extend st1 sto1 rest with
      | .ok _ st2 sto2 tr2 => .ok () st2 sto2 (tr1 ++ tr2)
      | .fatal k tr2 => .fatal k (tr1 ++ tr2)
    | .fatal k tr1 => .fatal k tr1

/-- `Vector::pop`: `None` on an empty vector; otherwise decrement `len`,
`replace` the entry at the old last index with `None` and return the previous
value, which must be present (`expect_consistent_state`). -/
def pop {T : Type} (cd : Codec T) (st : Vector T) (sto : Storage) : Res T (Option T) :=
  if st.len = 0 then .ok none st sto []
  else
    let last_idx := st.len - 1
    let st1 : Vector T := { st with len := last_idx }
    match load cd st1 sto last_idx with
    | .ok e st2 sto2 tr =>
      match e.value with
      | some v =>
        .ok (some v) { st2 with cache := cacheInsert st2.cache last_idx (e.replace none).2 } sto2 tr
      | none => .fatal .inconsistentState tr
    | .fatal k tr => .fatal k tr

/-- `Vector::swap`: fatal when either index is out of bounds; no-op when the
indices agree; otherwise load both entries, fatally reject an absent value on
either side, and exchange the two values in place — the exchange goes through
`value_mut`, so both entries end up `Modified` (spec section 4.4). -/
def swap {T : Type} (cd : Codec T) (st : Vector T) (sto : Storage) (a b : Nat) : Res T Unit :=
  if st.len ≤ a ∨ st.len ≤ b then .fatal .indexOutOfBounds []
  else if a = b then .ok () st sto []
  else
    match load cd st sto a with
    | .ok ea st1 sto1 tr1 =>
      match load cd st1 sto1 b with
      | .ok eb st2 sto2 tr2 =>
        match ea.value, eb.value with
        | some va, some vb =>
          .ok ()
            { st2 with cache :=
                cacheInsert (cacheInsert st2.cache a ⟨some vb, .modified⟩) b ⟨some va, .modified⟩ }
            sto2 (tr1 ++ tr2)
        | _, _ => .fatal .inconsistentState (tr1 ++ tr2)
      | .fatal k tr2 => .fatal k (tr1 ++ tr2)
    | .fatal k tr1 => .fatal k tr1

/-- `Vector::swap_remove`: fatal on an empty vector; otherwise swap the index
with the last position, pop, and `expect_consistent_state` the popped value. -/
def swap_remove {T : Type} (cd : Codec T) (st : Vector T) (sto : Storage) (i : Nat) : Res T T :=
  if st.len = 0 then .fatal .indexOutOfBounds []
  else
    match swap cd st sto i (st.len - 1) with
    | .ok _ st1 sto1 tr1 =>
      match pop cd st1 sto1 with
      | .ok (some v) st2 sto2 tr2 => .ok v st2 sto2 (tr1 ++ tr2)
      | .ok none _ _ tr2 => .fatal .inconsistentState (tr1 ++ tr2)
      | .fatal k tr2 => .fatal k (tr1 ++ tr2)
    | .fatal k tr1 => .fatal k tr1

/-- The storage removals `Vector::clear` issues: one per index in `[0, n)`,
in ascending order. -/
def removeRange (pfx : Bytes) (sto : Storage) : Nat → Storage × List StorageOp
  | 0 => (sto, [])
  | n + 1 =>
    let p := removeRange pfx sto n
    (storageRemove p.1 (index_to_lookup_key pfx n), p.2 ++ [.remove (index_to_lookup_key pfx n)])

/-- `Vector::clear`: remove storage for every index in `[0, len)`, reset the
length to zero and discard the whole cache. -/
def clear {T : Type} (st : Vector T) (sto : Storage) : Res T Unit :=
  let p := removeRange st.pfx sto st.len
  .ok () { st with len := 0, cache := [] } p.1 p.2

/-- Result of the `flush` iteration over the cache list. -/
inductive FlushRes (T : Type) where
  | ok (cache : Cache T) (sto : Storage) (tr : List StorageOp)
  | fatal (tr : List StorageOp)
deriving DecidableEq

/-- The `flush` loop over the cache entries in map order: a `Modified` entry
with a present value is serialized (fatal on encode failure) and written, a
`Modified` entry with an absent value has its key removed, and either way the
entry is demoted to `Cached`; `Cached` entries are untouched. -/
def flushLoop {T : Type} (cd : Codec T) (pfx : Bytes) :
    Cache T → Storage → FlushRes T
  | [], sto => .ok [] sto []
  | (k, e) :: rest, sto =>
    if e.state = EntryState.modified then
      match e.value with
      | some v =>
        match cd.ser v with
        | some raw =>
          match flushLoop cd pfx rest (storageWrite sto (index_to_lookup_key pfx k) raw) with
          | .ok c' sto' tr =>
            .ok ((k, e.replace_state .cached) :: c') sto'
              (.write (index_to_lookup_key pfx k) raw :: tr)
          | .fatal tr => .fatal (.write (index_to_lookup_key pfx k) raw :: tr)
        | none => .fatal []
      | none =>
        match flushLoop cd pfx rest (storageRemove sto (index_to_lookup_key pfx k)) with
        | .ok c' sto' tr =>
          .ok ((k, e.replace_state .cached) :: c') sto'
            (.remove (index_to_lookup_key pfx k) :: tr)
        | .fatal tr => .fatal (.remove (index_to_lookup_key pfx k) :: tr)
    else
      match flushLoop cd pfx rest sto with
      | .ok c' sto' tr => .ok ((k, e) :: c') sto' tr
      | .fatal tr => .fatal tr

/-- `Vector::flush`: run the flush loop over the whole cache. -/
def flush {T : Type} (cd : Codec T) (st : Vector T) (sto : Storage) : Res T Unit :=
  match flushLoop cd st.pfx st.cache sto with
  | .ok c' sto' tr => .ok () { st with cache := c' } sto' tr
  | .fatal tr => .fatal .serialization tr

/-- The value `get` would resolve for an index, computed without running the
cache update: the cached value if the index is cached, otherwise the decoded
storage value (`none` marks a fatal decode, `some none` a resolved absence). -/
def logicalVal {T : Type} (cd : Codec T) (st : Vector T) (sto : Storage) (i : Nat) :
    Option (Option T) :=
  match cacheGet st.cache i with
  | some e => some e.value
  | none =>
    match storageRead sto (index_to_lookup_key st.pfx i) with
    | some raw =>
      match cd.deser raw with
      | some v => some (some v)
      | none => none
    | none => some none

/-- Sequential `get` at each listed index, collecting the returned values. -/
def getSeq {T : Type} (cd : Codec T) (st : Vector T) (sto : Storage) :
    List Nat → Res T (List (Option T))
  | [] => .ok [] st sto []
  | i :: rest =>
    match get cd st sto i with
    | .ok w st1 sto1 tr1 =>
      match getSeq cd st1 sto1 rest with
      | .ok ws st2 sto2 tr2 => .ok (w :: ws) st2 sto2 (tr1 ++ tr2)
      | .fatal k tr2 => .fatal k (tr1 ++ tr2)
    | .fatal k tr1 => .fatal k tr1

end NearVec

namespace NearVec

variable {T : Type}

@[simp]
theorem cacheGet_cacheInsert_self (c : Cache T) (i : Nat) (e : CacheEntry T) :
    cacheGet (cacheInsert c i e) i = some e := by
  induction c with
  | nil => simp [cacheInsert, cacheGet]
  | cons p rest ih =>
    obtain ⟨j, e'⟩ := p
    by_cases h1 : i < j
    · simp [cacheInsert, h1, cacheGet]
    · by_cases h2 : i = j
      · simp [cacheInsert, h1, h2, cacheGet]
      · simp [cacheInsert, h1, h2, cacheGet, Ne.symm h2, ih]

theorem cacheGet_cacheInsert_ne (c : Cache T) {i j : Nat} (e : CacheEntry T) (h : j ≠ i) :
    cacheGet (cacheInsert c i e) j = cacheGet c j := by
  induction c with
  | nil => simp [cacheInsert, cacheGet, Ne.symm h]
  | cons p rest ih =>
    obtain ⟨k, e'⟩ := p
    by_cases h1 : i < k
    · simp [cacheInsert, h1, cacheGet, Ne.symm h]
    · by_cases h2 : i = k
      · subst h2
        simp [cacheInsert, h1, cacheGet, Ne.symm h]
      · simp only [cacheInsert, if_neg h1, if_neg h2, cacheGet]
        by_cases h3 : k = j
        · simp [h3]
        · simp [h3, ih]

theorem logicalVal_of_cacheGet {cd : Codec T} {st : Vector T} {sto : Storage} {j : Nat}
    {e : CacheEntry T} (h : cacheGet st.cache j = some e) :
    logicalVal cd st sto j = some e.value := by
  simp [logicalVal, h]

theorem logicalVal_congr {cd : Codec T} {st st' : Vector T} {sto : Storage} {j : Nat}
    (hp : st'.pfx = st.pfx) (hc : cacheGet st'.cache j = cacheGet st.cache j) :
    logicalVal cd st' sto j = logicalVal cd st sto j := by
  simp only [logicalVal, hp, hc]

/-- `load` on a state whose resolution is known: it returns an entry holding
the resolved value, leaves storage alone, caches the entry at the index and
changes no other cache slot; in particular every index resolves afterwards to
the same value as before. -/
theorem load_ok {cd : Codec T} {st : Vector T} {sto : Storage} {i : Nat} {w : Option T}
    (h : logicalVal cd st sto i = some w) :
    ∃ e st' tr, load cd st sto i = Res.ok e st' sto tr
      ∧ e.value = w ∧ st'.len = st.len ∧ st'.pfx = st.pfx
      ∧ cacheGet st'.cache i = some e
      ∧ (∀ j, j ≠ i → cacheGet st'.cache j = cacheGet st.cache j)
      ∧ (∀ j, logicalVal cd st' sto j = logicalVal cd st sto j) := by
  cases hc : cacheGet st.cache i with
  | some e =>
    have hw : e.value = w := by
      simp only [logicalVal, hc] at h
      simpa using h
    exact ⟨e, st, [], by simp [load, hc], hw, rfl, rfl, hc, fun j _ => rfl, fun j => rfl⟩
  | none =>
    cases hr : storageRead sto (index_to_lookup_key st.pfx i) with
    | some raw =>
      cases hd : cd.deser raw with
      | some v =>
        have hw : some v = w := by
          simp only [logicalVal, hc, hr, hd] at h
          simpa using h
        refine ⟨CacheEntry.new_cached (some v),
          { st with cache := cacheInsert st.cache i (CacheEntry.new_cached (some v)) },
          [StorageOp.read (index_to_lookup_key st.pfx i)],
          by simp [load, hc, hr, hd], hw, rfl, rfl,
          by simp, fun j hj => cacheGet_cacheInsert_ne _ _ hj, ?_⟩
        intro j
        by_cases hj : j = i
        · subst hj
          rw [logicalVal_of_cacheGet
            (show cacheGet (cacheInsert st.cache j (CacheEntry.new_cached (some v))) j = _ from
              cacheGet_cacheInsert_self st.cache j (CacheEntry.new_cached (some v)))]
          simp only [logicalVal, hc, hr, hd, CacheEntry.new_cached]
        · exact logicalVal_congr rfl (cacheGet_cacheInsert_ne _ _ hj)
      | none =>
        exfalso
        simp [logicalVal, hc, hr, hd] at h
    | none =>
      have hw : (none : Option T) = w := by
        simp only [logicalVal, hc, hr] at h
        simpa using h
      refine ⟨CacheEntry.new_cached none,
        { st with cache := cacheInsert st.cache i (CacheEntry.new_cached none) },
        [StorageOp.read (index_to_lookup_key st.pfx i)],
        by simp [load, hc, hr], hw, rfl, rfl,
        by simp, fun j hj => cacheGet_cacheInsert_ne _ _ hj, ?_⟩
      intro j
      by_cases hj : j = i
      · subst hj
        rw [logicalVal_of_cacheGet
          (show cacheGet (cacheInsert st.cache j (CacheEntry.new_cached none)) j = _ from
            cacheGet_cacheInsert_self st.cache j (CacheEntry.new_cached none))]
        simp only [logicalVal, hc, hr, CacheEntry.new_cached]
      · exact logicalVal_congr rfl (cacheGet_cacheInsert_ne _ _ hj)

end NearVec

namespace NearVec

variable {T : Type}

/-- `get` returns exactly the resolved value of its index, leaves storage and
the length alone, and changes no resolution. -/
theorem get_ok {cd : Codec T} {st : Vector T} {sto : Storage} {i : Nat} {w : Option T}
    (h : logicalVal cd st sto i = some w) :
    ∃ st' tr, get cd st sto i = Res.ok w st' sto tr
      ∧ st'.len = st.len ∧ st'.pfx = st.pfx
      ∧ (∀ j, logicalVal cd st' sto j = logicalVal cd st sto j) := by
  obtain ⟨e, st', tr, heq, hval, hlen, hpfx, _, _, hlog⟩ := load_ok h
  exact ⟨st', tr, by simp [get, heq, hval], hlen, hpfx, hlog⟩

/-- `pop` on a vector of length `n + 1` whose last index resolves to `v`:
returns `v`, decrements the length, marks the last slot `Modified` with an
absent value and touches no other cache slot, nor storage. -/
theorem pop_ok {cd : Codec T} {st : Vector T} {sto : Storage} {n : Nat} {v : T}
    (hn : st.len = n + 1) (h : logicalVal cd st sto n = some (some v)) :
    ∃ st' tr, pop cd st sto = Res.ok (some v) st' sto tr
      ∧ st'.len = n ∧ st'.pfx = st.pfx
      ∧ cacheGet st'.cache n = some ⟨none, EntryState.modified⟩
      ∧ (∀ j, j ≠ n → cacheGet st'.cache j = cacheGet st.cache j) := by
  have h1 : logicalVal cd { st with len := n } sto n = some (some v) := h
  obtain ⟨e, st2, tr, heq, hval, hlen, hpfx, _, hframe, _⟩ := load_ok h1
  have hz : ¬ st.len = 0 := by omega
  have hlast : st.len - 1 = n := by omega
  refine ⟨{ st2 with cache := cacheInsert st2.cache n (e.replace none).2 }, tr, ?_, hlen, hpfx,
    by simp [CacheEntry.replace], ?_⟩
  · simp only [pop, if_neg hz, hlast, heq, hval]
  · intro j hj
    rw [show ({ st2 with cache := cacheInsert st2.cache n (e.replace none).2 } : Vector T).cache
        = cacheInsert st2.cache n (e.replace none).2 from rfl,
      cacheGet_cacheInsert_ne _ _ hj]
    exact hframe j hj

/-- `swap` at distinct in-bounds indices that resolve to present values:
exchanges the two values, marks both entries `Modified`, and touches no other
cache slot, nor storage. -/
theorem swap_ok {cd : Codec T} {st : Vector T} {sto : Storage} {a b : Nat} {va vb : T}
    (ha : a < st.len) (hb : b < st.len) (hab : a ≠ b)
    (hA : logicalVal cd st sto a = some (some va))
    (hB : logicalVal cd st sto b = some (some vb)) :
    ∃ st' tr, swap cd st sto a b = Res.ok () st' sto tr
      ∧ st'.len = st.len ∧ st'.pfx = st.pfx
      ∧ cacheGet st'.cache a = some ⟨some vb, EntryState.modified⟩
      ∧ cacheGet st'.cache b = some ⟨some va, EntryState.modified⟩
      ∧ (∀ j, j ≠ a → j ≠ b → cacheGet st'.cache j = cacheGet st.cache j) := by
  obtain ⟨ea, st1, tr1, heq1, hval1, hlen1, hpfx1, _, hframe1, hlog1⟩ := load_ok hA
  have hB1 : logicalVal cd st1 sto b = some (some vb) := by rw [hlog1]; exact hB
  obtain ⟨eb, st2, tr2, heq2, hval2, hlen2, hpfx2, _, hframe2, _⟩ := load_ok hB1
  have hbound : ¬ (st.len ≤ a ∨ st.len ≤ b) := by omega
  refine ⟨{ st2 with cache := cacheInsert (cacheInsert st2.cache a ⟨some vb, EntryState.modified⟩) b ⟨some va, EntryState.modified⟩ },
    tr1 ++ tr2, ?_, by rw [hlen2, hlen1], by rw [hpfx2, hpfx1], ?_, by simp, ?_⟩
  · simp only [swap, if_neg hbound, if_neg hab, heq1, heq2, hval1, hval2]
  · show cacheGet (cacheInsert (cacheInsert st2.cache a ⟨some vb, EntryState.modified⟩) b
      ⟨some va, EntryState.modified⟩) a = some ⟨some vb, EntryState.modified⟩
    rw [cacheGet_cacheInsert_ne _ _ hab]
    simp
  · intro j hja hjb
    show cacheGet (cacheInsert (cacheInsert st2.cache a ⟨some vb, EntryState.modified⟩) b
      ⟨some va, EntryState.modified⟩) j = cacheGet st.cache j
    rw [cacheGet_cacheInsert_ne _ _ hjb, cacheGet_cacheInsert_ne _ _ hja,
      hframe2 j hjb, hframe1 j hja]

end NearVec

namespace NearVec

variable {T : Type}

/-- C1: on a collection of length `n ≥ 1` whose indices `j < n` resolve to
elements `elem j`, `swap_remove i` for `i < n` returns `elem i`, the new
length is `n - 1`, index `i` afterwards resolves to the element previously at
`n - 1` (vacuously when `i = n - 1`), and every other index below `n - 1`
resolves to its previous element; storage is untouched. -/
theorem C1_swap_remove_spec {cd : Codec T} {st : Vector T} {sto : Storage} (elem : Nat → T)
    (i : Nat) (h1 : 1 ≤ st.len) (hi : i < st.len)
    (hm : ∀ j, j < st.len → logicalVal cd st sto j = some (some (elem j))) :
    ∃ st' tr, swap_remove cd st sto i = Res.ok (elem i) st' sto tr
      ∧ st'.len = st.len - 1
      ∧ ∀ j, j < st.len - 1 →
          logicalVal cd st' sto j = some (some (if j = i then elem (st.len - 1) else elem j)) := by
  have hz : ¬ st.len = 0 := by omega
  by_cases hcase : i = st.len - 1
  · have hbound : ¬ (st.len ≤ i ∨ st.len ≤ st.len - 1) := by omega
    have hswap : swap cd st sto i (st.len - 1) = Res.ok () st sto [] := by
      simp only [swap, if_neg hbound, if_pos hcase]
    obtain ⟨st2, tr2, hpop, hlen2, hpfx2, hcg2, hframe2⟩ :=
      @pop_ok T cd st sto (st.len - 1) (elem (st.len - 1)) (by omega) (hm (st.len - 1) (by omega))
    refine ⟨st2, [] ++ tr2, ?_, by omega, ?_⟩
    · simp only [swap_remove, if_neg hz, hswap, hpop]
      rw [hcase]
    · intro j hj
      have hjne : j ≠ st.len - 1 := by omega
      have hjni : j ≠ i := by omega
      rw [logicalVal_congr hpfx2 (hframe2 j hjne), hm j (by omega), if_neg hjni]
  · obtain ⟨st1, tr1, hswap, hlen1, hpfx1, hcga, hcgb, hframe1⟩ :=
      swap_ok hi (by omega) hcase (hm i hi) (hm (st.len - 1) (by omega))
    have hlog1 : logicalVal cd st1 sto (st.len - 1) = some (some (elem i)) := by
      rw [logicalVal_of_cacheGet hcgb]
    obtain ⟨st2, tr2, hpop, hlen2, hpfx2, hcg2, hframe2⟩ :=
      @pop_ok T cd st1 sto (st.len - 1) (elem i) (by omega) hlog1
    refine ⟨st2, tr1 ++ tr2, ?_, by omega, ?_⟩
    · simp only [swap_remove, if_neg hz, hswap, hpop]
    · intro j hj
      have hjne : j ≠ st.len - 1 := by omega
      by_cases hji : j = i
      · subst hji
        rw [logicalVal_of_cacheGet
          (show cacheGet st2.cache j = some ⟨some (elem (st.len - 1)), EntryState.modified⟩ from by
            rw [hframe2 j hjne]; exact hcga)]
        simp
      · rw [logicalVal_congr (hpfx2.trans hpfx1)
          ((hframe2 j hjne).trans (hframe1 j hji hjne)), hm j (by omega), if_neg hji]

/-- C2: for in-bounds indices `a, b`: `swap` is a no-op returning the state
unchanged when `a = b`; when `a ≠ b` and both indices resolve to present
values it exchanges the two values in place, leaving both cache entries
`Modified` (so the next flush writes both, see the C4 flush theorem) and all
other slots and storage untouched; and when `a ≠ b` and either side resolves
to an absent value it fails fatally with the inconsistent-state error. -/
theorem C2_swap_spec {cd : Codec T} {st : Vector T} {sto : Storage} (a b : Nat)
    (ha : a < st.len) (hb : b < st.len) :
    (a = b → swap cd st sto a b = Res.ok () st sto [])
    ∧ (∀ va vb, a ≠ b →
        logicalVal cd st sto a = some (some va) → logicalVal cd st sto b = some (some vb) →
        ∃ st' tr, swap cd st sto a b = Res.ok () st' sto tr
          ∧ st'.len = st.len
          ∧ cacheGet st'.cache a = some ⟨some vb, EntryState.modified⟩
          ∧ cacheGet st'.cache b = some ⟨some va, EntryState.modified⟩
          ∧ ∀ j, j ≠ a → j ≠ b → cacheGet st'.cache j = cacheGet st.cache j)
    ∧ (∀ wa wb, a ≠ b →
        logicalVal cd st sto a = some wa → logicalVal cd st sto b = some wb →
        (wa = none ∨ wb = none) →
        ∃ tr, swap cd st sto a b = Res.fatal PanicKind.inconsistentState tr) := by
  refine ⟨?_, ?_, ?_⟩
  · intro hab
    have hbound : ¬ (st.len ≤ a ∨ st.len ≤ b) := by omega
    simp only [swap, if_neg hbound, if_pos hab]
  · intro va vb hab hA hB
    obtain ⟨st', tr, heq, hlen, _, hga, hgb, hframe⟩ := swap_ok ha hb hab hA hB
    exact ⟨st', tr, heq, hlen, hga, hgb, hframe⟩
  · intro wa wb hab hA hB hnone
    obtain ⟨ea, st1, tr1, heq1, hval1, _, _, _, _, hlog1⟩ := load_ok hA
    have hB1 : logicalVal cd st1 sto b = some wb := by rw [hlog1]; exact hB
    obtain ⟨eb, st2, tr2, heq2, hval2, _, _, _, _, _⟩ := load_ok hB1
    have hbound : ¬ (st.len ≤ a ∨ st.len ≤ b) := by omega
    refine ⟨tr1 ++ tr2, ?_⟩
    rcases hnone with h | h
    · subst h
      cases hwb : wb with
      | none =>
        rw [hwb] at hval2
        simp only [swap, if_neg hbound, if_neg hab, heq1, heq2, hval1, hval2]
      | some x =>
        rw [hwb] at hval2
        simp only [swap, if_neg hbound, if_neg hab, heq1, heq2, hval1, hval2]
    · subst h
      cases hwa : wa with
      | none =>
        rw [hwa] at hval1
        simp only [swap, if_neg hbound, if_neg hab, heq1, heq2, hval1, hval2]
      | some x =>
        rw [hwa] at hval1
        simp only [swap, if_neg hbound, if_neg hab, heq1, heq2, hval1, hval2]

/-- C7: for an out-of-range index (`index ≥ len`), `set`, `swap` (on either
argument) and `swap_remove` all fail fatally with the out-of-bounds error and
an empty storage trace: no storage write or removal happens before the abort,
so the persisted length and contents are exactly as before the call (the
in-memory state of the aborted invocation is discarded by the host). -/
theorem C7_oob_fatal {cd : Codec T} (st : Vector T) (sto : Storage) (i b : Nat) (v : T)
    (hi : st.len ≤ i) :
    set st sto i v = Res.fatal PanicKind.indexOutOfBounds []
    ∧ swap cd st sto i b = Res.fatal PanicKind.indexOutOfBounds []
    ∧ swap cd st sto b i = Res.fatal PanicKind.indexOutOfBounds []
    ∧ swap_remove cd st sto i = Res.fatal PanicKind.indexOutOfBounds [] := by
  refine ⟨by simp [set, hi], by simp [swap, Or.inl hi], by simp [swap, Or.inr hi], ?_⟩
  by_cases hz : st.len = 0
  · simp [swap_remove, hz]
  · have hsw : swap cd st sto i (st.len - 1) = Res.fatal PanicKind.indexOutOfBounds [] := by
      simp [swap, Or.inl hi]
    simp only [swap_remove, if_neg hz, hsw]

end NearVec

namespace NearVec

/-- A concrete codec on `Nat` elements: one byte per value. -/
def cdNat : Codec Nat :=
  ⟨fun n => some [n], fun l => match l with | [n] => some n | _ => none⟩

/-- A concrete three-element vector state with a mixed cache. -/
def vecW3 : Vector Nat :=
  ⟨3, [7], [(0, ⟨some 10, .cached⟩), (1, ⟨some 11, .modified⟩), (2, ⟨some 12, .cached⟩)]⟩

/-- A concrete two-element vector state with a fully cached cache. -/
def vecW2 : Vector Nat :=
  ⟨2, [], [(0, ⟨some 5, .cached⟩), (1, ⟨some 6, .cached⟩)]⟩

theorem C1_swap_remove_spec_witness :
    (1 ≤ vecW3.len ∧ 0 < vecW3.len
      ∧ (∀ j, j < vecW3.len → logicalVal cdNat vecW3 [] j = some (some (10 + j))))
    ∧ (∃ st' tr, swap_remove cdNat vecW3 [] 0 = Res.ok (10 + 0) st' [] tr
        ∧ st'.len = vecW3.len - 1
        ∧ ∀ j, j < vecW3.len - 1 →
            logicalVal cdNat st' [] j
              = some (some (if j = 0 then 10 + (vecW3.len - 1) else 10 + j))) :=
  ⟨⟨by decide, by decide, by decide⟩,
    C1_swap_remove_spec (fun j => 10 + j) 0 (by decide) (by decide) (by decide)⟩

theorem C2_swap_spec_witness :
    (0 < vecW2.len ∧ 1 < vecW2.len)
    ∧ ((0 = 1 → swap cdNat vecW2 [] 0 1 = Res.ok () vecW2 [] [])
      ∧ (∀ va vb, 0 ≠ 1 →
          logicalVal cdNat vecW2 [] 0 = some (some va) →
          logicalVal cdNat vecW2 [] 1 = some (some vb) →
          ∃ st' tr, swap cdNat vecW2 [] 0 1 = Res.ok () st' [] tr
            ∧ st'.len = vecW2.len
            ∧ cacheGet st'.cache 0 = some ⟨some vb, EntryState.modified⟩
            ∧ cacheGet st'.cache 1 = some ⟨some va, EntryState.modified⟩
            ∧ ∀ j, j ≠ 0 → j ≠ 1 → cacheGet st'.cache j = cacheGet vecW2.cache j)
      ∧ (∀ wa wb, 0 ≠ 1 →
          logicalVal cdNat vecW2 [] 0 = some wa →
          logicalVal cdNat vecW2 [] 1 = some wb →
          (wa = none ∨ wb = none) →
          ∃ tr, swap cdNat vecW2 [] 0 1 = Res.fatal PanicKind.inconsistentState tr)) :=
  ⟨⟨by decide, by decide⟩, C2_swap_spec 0 1 (by decide) (by decide)⟩

theorem C7_oob_fatal_witness :
    vecW2.len ≤ 5
    ∧ (set vecW2 [] 5 9 = Res.fatal PanicKind.indexOutOfBounds []
      ∧ swap cdNat vecW2 [] 5 0 = Res.fatal PanicKind.indexOutOfBounds []
      ∧ swap cdNat vecW2 [] 0 5 = Res.fatal PanicKind.indexOutOfBounds []
      ∧ swap_remove cdNat vecW2 [] 5 = Res.fatal PanicKind.indexOutOfBounds []) :=
  ⟨by decide, C7_oob_fatal vecW2 [] 5 0 9 (by decide)⟩

end NearVec

namespace NearVec

variable {T : Type}

/-- The storage calls the flush loop makes, in cache order: one write per
`Modified` entry with a present (serializable) value, one removal per
`Modified` entry with an absent value, nothing for a `Cached` entry. -/
def flushOps (cd : Codec T) (pfx : Bytes) : Cache T → List StorageOp
  | [] => []
  | (k, e) :: rest =>
    (if e.state = EntryState.modified then
      match e.value with
      | some v =>
        match cd.ser v with
        | some raw => [StorageOp.write (index_to_lookup_key pfx k) raw]
        | none => []
      | none => [StorageOp.remove (index_to_lookup_key pfx k)]
    else []) ++ flushOps cd pfx rest

theorem flushLoop_ok_spec {cd : Codec T} {pfx : Bytes} :
    ∀ {c : Cache T} {sto : Storage} {c' : Cache T} {sto' : Storage} {tr : List StorageOp},
    flushLoop cd pfx c sto = FlushRes.ok c' sto' tr →
    c' = c.map (fun p => (p.1, p.2.replace_state EntryState.cached))
      ∧ tr = flushOps cd pfx c := by
  intro c
  induction c with
  | nil =>
    intro sto c' sto' tr h
    simp only [flushLoop] at h
    cases h
    simp [flushOps]
  | cons p rest ih =>
    intro sto c' sto' tr h
    obtain ⟨k, e⟩ := p
    by_cases hstate : e.state = EntryState.modified
    · cases hv : e.value with
      | some v =>
        cases hser : cd.ser v with
        | some raw =>
          simp only [flushLoop, if_pos hstate, hv, hser] at h
          cases hrec : flushLoop cd pfx rest
              (storageWrite sto (index_to_lookup_key pfx k) raw) with
          | ok c2 sto2 tr2 =>
            rw [hrec] at h
            cases h
            obtain ⟨hc, htr⟩ := ih hrec
            subst hc
            subst htr
            simp [flushOps, if_pos hstate, hv, hser, CacheEntry.replace_state]
          | fatal tr2 => rw [hrec] at h; cases h
        | none =>
          simp only [flushLoop, if_pos hstate, hv, hser] at h
          cases h
      | none =>
        simp only [flushLoop, if_pos hstate, hv] at h
        cases hrec : flushLoop cd pfx rest
            (storageRemove sto (index_to_lookup_key pfx k)) with
        | ok c2 sto2 tr2 =>
          rw [hrec] at h
          cases h
          obtain ⟨hc, htr⟩ := ih hrec
          subst hc
          subst htr
          simp [flushOps, if_pos hstate, hv, CacheEntry.replace_state]
        | fatal tr2 => rw [hrec] at h; cases h
    · have he : e.replace_state EntryState.cached = e := by
        obtain ⟨val, s⟩ := e
        cases s with
        | cached => rfl
        | modified => exact absurd rfl hstate
      simp only [flushLoop, if_neg hstate] at h
      cases hrec : flushLoop cd pfx rest sto with
      | ok c2 sto2 tr2 =>
        rw [hrec] at h
        cases h
        obtain ⟨hc, htr⟩ := ih hrec
        subst hc
        subst htr
        simp [flushOps, if_neg hstate, he]
      | fatal tr2 => rw [hrec] at h; cases h

theorem flushLoop_all_cached {cd : Codec T} {pfx : Bytes} :
    ∀ {c : Cache T} (sto : Storage), (∀ p ∈ c, p.2.state = EntryState.cached) →
    flushLoop cd pfx c sto = FlushRes.ok c sto [] := by
  intro c
  induction c with
  | nil => intro sto _; simp [flushLoop]
  | cons p rest ih =>
    intro sto h
    obtain ⟨k, e⟩ := p
    have he : e.state = EntryState.cached := h (k, e) (by simp)
    have hne : ¬ e.state = EntryState.modified := by rw [he]; intro hx; cases hx
    have hr : flushLoop cd pfx rest sto = FlushRes.ok rest sto [] :=
      ih sto (fun q hq => h q (by simp [hq]))
    simp only [flushLoop, if_neg hne, hr]

/-- `flush` on a vector whose cache entries are all `Cached` does nothing. -/
theorem flush_of_all_cached {cd : Codec T} {st : Vector T} {sto : Storage}
    (h : ∀ p ∈ st.cache, p.2.state = EntryState.cached) :
    flush cd st sto = Res.ok () st sto [] := by
  have hloop := @flushLoop_all_cached T cd st.pfx st.cache sto h
  unfold flush
  rw [hloop]

end NearVec

namespace NearVec

variable {T : Type}

/-- C4: a single `flush` performs exactly one storage write for each
`Modified` entry holding a present value (at the key encoded from the prefix
and the entry's index), exactly one storage removal for each `Modified` entry
holding an absent value, and no storage operation for entries already
`Cached` — the trace is precisely `flushOps` over the cache — and afterwards
every cache entry is in the `Cached` state (values, length and prefix
unchanged). -/
theorem C4_flush_spec {cd : Codec T} {st : Vector T} {sto : Storage} {st' : Vector T}
    {sto' : Storage} {tr : List StorageOp} (h : flush cd st sto = Res.ok () st' sto' tr) :
    st'.len = st.len ∧ st'.pfx = st.pfx
    ∧ st'.cache = st.cache.map (fun p => (p.1, p.2.replace_state EntryState.cached))
    ∧ tr = flushOps cd st.pfx st.cache
    ∧ ∀ p ∈ st'.cache, p.2.state = EntryState.cached := by
  unfold flush at h
  cases hfl : flushLoop cd st.pfx st.cache sto with
  | ok c2 sto2 tr2 =>
    rw [hfl] at h
    cases h
    obtain ⟨hc, htr⟩ := flushLoop_ok_spec hfl
    subst hc
    subst htr
    refine ⟨rfl, rfl, rfl, rfl, ?_⟩
    intro p hp
    obtain ⟨q, _, rfl⟩ := List.mem_map.mp hp
    rfl
  | fatal tr2 => rw [hfl] at h; cases h

/-- C5: flush is idempotent — after a successful `flush`, a second `flush`
with no intervening mutation performs zero storage writes and zero storage
removals (its trace is empty) and returns the state and storage of the first
flush unchanged. -/
theorem C5_flush_idempotent {cd : Codec T} {st : Vector T} {sto : Storage} {st1 : Vector T}
    {sto1 : Storage} {tr1 : List StorageOp} (h : flush cd st sto = Res.ok () st1 sto1 tr1) :
    flush cd st1 sto1 = Res.ok () st1 sto1 [] := by
  unfold flush at h
  cases hfl : flushLoop cd st.pfx st.cache sto with
  | ok c2 sto2 tr2 =>
    rw [hfl] at h
    cases h
    obtain ⟨hc, _⟩ := flushLoop_ok_spec hfl
    refine flush_of_all_cached ?_
    subst hc
    intro p hp
    obtain ⟨q, _, rfl⟩ := List.mem_map.mp hp
    rfl
  | fatal tr2 => rw [hfl] at h; cases h

/-- The state of `vecW3` after a flush: all entries demoted to `Cached`. -/
def flushedW3 : Vector Nat :=
  ⟨3, [7], [(0, ⟨some 10, .cached⟩), (1, ⟨some 11, .cached⟩), (2, ⟨some 12, .cached⟩)]⟩

/-- The storage contents after flushing `vecW3` into empty storage. -/
def stoW3 : Storage := [([7, 1, 0, 0, 0], [11])]

/-- The trace of flushing `vecW3`: one write, for its single modified entry. -/
def trW3 : List StorageOp := [StorageOp.write [7, 1, 0, 0, 0] [11]]

theorem C4_flush_spec_witness :
    flush cdNat vecW3 [] = Res.ok () flushedW3 stoW3 trW3
    ∧ (flushedW3.len = vecW3.len ∧ flushedW3.pfx = vecW3.pfx
      ∧ flushedW3.cache = vecW3.cache.map (fun p => (p.1, p.2.replace_state EntryState.cached))
      ∧ trW3 = flushOps cdNat vecW3.pfx vecW3.cache
      ∧ ∀ p ∈ flushedW3.cache, p.2.state = EntryState.cached) :=
  ⟨by decide, @C4_flush_spec Nat cdNat vecW3 [] flushedW3 stoW3 trW3 (by decide)⟩

theorem C5_flush_idempotent_witness :
    flush cdNat vecW3 [] = Res.ok () flushedW3 stoW3 trW3
    ∧ flush cdNat flushedW3 stoW3 = Res.ok () flushedW3 stoW3 [] :=
  ⟨by decide, @C5_flush_idempotent Nat cdNat vecW3 [] flushedW3 stoW3 trW3 (by decide)⟩

end NearVec

namespace NearVec

variable {T : Type}

/-- The cache produced by pushing the elements of `vs` at consecutive indices
starting at `k`: one `Modified` present entry per element. -/
def modCache (vs : List T) (k : Nat) : Cache T :=
  match vs with
  | [] => []
  | v :: rest => (k, CacheEntry.new_modified (some v)) :: modCache rest (k + 1)

theorem cacheGet_of_keys_lt {c : Cache T} {k : Nat} (h : ∀ p ∈ c, p.1 < k) :
    cacheGet c k = none := by
  induction c with
  | nil => rfl
  | cons p rest ih =>
    obtain ⟨j, e⟩ := p
    have hj : j < k := h (j, e) (by simp)
    have hne : j ≠ k := by omega
    simp only [cacheGet, if_neg hne]
    exact ih (fun q hq => h q (List.mem_cons_of_mem _ hq))

theorem cacheInsert_of_keys_lt {c : Cache T} {k : Nat} (e : CacheEntry T)
    (h : ∀ p ∈ c, p.1 < k) : cacheInsert c k e = c ++ [(k, e)] := by
  induction c with
  | nil => rfl
  | cons p rest ih =>
    obtain ⟨j, e'⟩ := p
    have hj : j < k := h (j, e') (by simp)
    have h1 : ¬ k < j := by omega
    have h2 : ¬ k = j := by omega
    simp only [cacheInsert, if_neg h1, if_neg h2, List.cons_append]
    rw [ih (fun q hq => h q (List.mem_cons_of_mem _ hq))]

theorem extend_ok {vs : List T} : ∀ (k : Nat) (P : Bytes) (c : Cache T) (sto : Storage),
    k + vs.length ≤ u32Max → (∀ p ∈ c, p.1 < k) →
    extend (⟨k, P, c⟩ : Vector T) sto vs
      = Res.ok () ⟨k + vs.length, P, c ++ modCache vs k⟩ sto [] := by
  induction vs with
  | nil =>
    intro k P c sto _ _
    simp [extend, modCache]
  | cons v rest ih =>
    intro k P c sto h1 h2
    have hlen : (v :: rest).length = rest.length + 1 := by simp
    rw [hlen] at h1
    have hk : ¬ u32Max ≤ k := by omega
    have hset : set (⟨k + 1, P, c⟩ : Vector T) sto k v
        = Res.ok () ⟨k + 1, P, c ++ [(k, CacheEntry.new_modified (some v))]⟩ sto [] := by
      have hle : ¬ (k + 1 ≤ k) := by omega
      have hg : cacheGet c k = none := cacheGet_of_keys_lt h2
      simp only [set, if_neg hle, hg, cacheInsert_of_keys_lt _ h2]
    have hpush : push (⟨k, P, c⟩ : Vector T) sto v
        = Res.ok () ⟨k + 1, P, c ++ [(k, CacheEntry.new_modified (some v))]⟩ sto [] := by
      simp only [push, if_neg hk]
      exact hset
    have hkeys : ∀ p ∈ c ++ [(k, CacheEntry.new_modified (some v))], p.1 < k + 1 := by
      intro p hp
      rcases List.mem_append.mp hp with h | h
      · exact Nat.lt_succ_of_lt (h2 p h)
      · rcases List.mem_singleton.mp h with rfl
        exact Nat.lt_succ_self k
    have hrec := ih (k + 1) P (c ++ [(k, CacheEntry.new_modified (some v))]) sto
      (by omega) hkeys
    simp only [extend, hpush, hrec, List.nil_append]
    have harith : k + 1 + rest.length = k + (v :: rest).length := by simp; omega
    rw [List.append_assoc]
    rw [show ([(k, CacheEntry.new_modified (some v))] : Cache T) ++ modCache rest (k + 1)
        = modCache (v :: rest) k from rfl]
    rw [harith]

theorem cacheGet_modCache {vs : List T} : ∀ (k i : Nat) (hi : i < vs.length),
    cacheGet (modCache vs k) (k + i)
      = some (CacheEntry.new_modified (some (vs.get ⟨i, hi⟩))) := by
  induction vs with
  | nil =>
    intro k i hi
    exact absurd hi (by simp)
  | cons v rest ih =>
    intro k i hi
    cases i with
    | zero => simp [modCache, cacheGet]
    | succ m =>
      have hne : ¬ k = k + (m + 1) := by omega
      simp only [modCache, cacheGet, if_neg hne]
      have hm : m < rest.length := by simpa using Nat.lt_of_succ_lt_succ hi
      rw [show k + (m + 1) = (k + 1) + m from by omega]
      rw [ih (k + 1) m hm]
      simp

/-- C8: starting from a new collection and pushing the elements of `vs` (any
number up to the representable length limit), `get i` afterwards returns
exactly the value pushed as the `i`-th element; the pushes and the get make
no storage calls (the values sit in the cache as `Modified` entries until a
flush). -/
theorem C8_push_then_get {cd : Codec T} (P : Bytes) (sto : Storage) (vs : List T) (i : Nat)
    (hlen : vs.length ≤ u32Max) (hi : i < vs.length) :
    ∃ stF, extend (Vector.new P) sto vs = Res.ok () stF sto []
      ∧ get cd stF sto i = Res.ok (some (vs.get ⟨i, hi⟩)) stF sto [] := by
  have hext := @extend_ok T vs 0 P [] sto (by omega) (by intro p hp; cases hp)
  have hext' : extend (Vector.new P) sto vs
      = Res.ok () ⟨vs.length, P, modCache vs 0⟩ sto [] := by
    simpa using hext
  refine ⟨⟨vs.length, P, modCache vs 0⟩, hext', ?_⟩
  have hcg : cacheGet (modCache vs 0) i
      = some (CacheEntry.new_modified (some (vs.get ⟨i, hi⟩))) := by
    simpa using cacheGet_modCache 0 i hi
  simp [get, load, hcg, CacheEntry.new_modified]

theorem C8_push_then_get_witness :
    (([3, 4, 5] : List Nat).length ≤ u32Max ∧ 1 < ([3, 4, 5] : List Nat).length)
    ∧ ∃ stF, extend (Vector.new [2]) [] [3, 4, 5] = Res.ok () stF [] []
        ∧ get cdNat stF [] 1 = Res.ok (some 4) stF [] [] :=
  ⟨⟨by decide, by decide⟩, C8_push_then_get [2] [] [3, 4, 5] 1 (by decide) (by decide)⟩

end NearVec

namespace NearVec

variable {T : Type}

theorem index_key_ne {P : Bytes} {i j : Nat} (h : u32ToLeBytes i ≠ u32ToLeBytes j) :
    index_to_lookup_key P i ≠ index_to_lookup_key P j := by
  intro hx
  exact h (List.append_cancel_left hx)

/-- C3: persistence round-trip.  From empty storage, pushing `A, B, Cv` into
a fresh collection with prefix `P` and flushing, then reconstituting a new
collection instance with the same prefix (persisted length 3), `get` returns
`A`, `B`, `Cv` at indices 0, 1, 2 and absent at index 3 (assuming the codec
round-trips on the three values). -/
theorem C3_persistence_round_trip {cd : Codec T} (P : Bytes) (A B Cv : T) (aB bB cB : Bytes)
    (hsA : cd.ser A = some aB) (hsB : cd.ser B = some bB) (hsC : cd.ser Cv = some cB)
    (hdA : cd.deser aB = some A) (hdB : cd.deser bB = some B) (hdC : cd.deser cB = some Cv) :
    ∃ st1 st2 sto2 tr2 st3 tr3,
      extend (Vector.new P) [] [A, B, Cv] = Res.ok () st1 [] []
      ∧ flush cd st1 [] = Res.ok () st2 sto2 tr2
      ∧ getSeq cd (Vector.reconstruct P 3) sto2 [0, 1, 2, 3]
          = Res.ok [some A, some B, some Cv, none] st3 sto2 tr3 := by
  have k01 : index_to_lookup_key P 0 ≠ index_to_lookup_key P 1 := index_key_ne (by decide)
  have k02 : index_to_lookup_key P 0 ≠ index_to_lookup_key P 2 := index_key_ne (by decide)
  have k03 : index_to_lookup_key P 0 ≠ index_to_lookup_key P 3 := index_key_ne (by decide)
  have k12 : index_to_lookup_key P 1 ≠ index_to_lookup_key P 2 := index_key_ne (by decide)
  have k13 : index_to_lookup_key P 1 ≠ index_to_lookup_key P 3 := index_key_ne (by decide)
  have k23 : index_to_lookup_key P 2 ≠ index_to_lookup_key P 3 := index_key_ne (by decide)
  have hext := @extend_ok T [A, B, Cv] 0 P [] [] (by simp [u32Max]) (by intro p hp; cases hp)
  have hext' : extend (Vector.new P) [] [A, B, Cv]
      = Res.ok () ⟨3, P, [(0, CacheEntry.new_modified (some A)),
          (1, CacheEntry.new_modified (some B)),
          (2, CacheEntry.new_modified (some Cv))]⟩ [] [] := by
    simpa [modCache] using hext
  have hfl : flush cd (⟨3, P, [(0, CacheEntry.new_modified (some A)),
        (1, CacheEntry.new_modified (some B)),
        (2, CacheEntry.new_modified (some Cv))]⟩ : Vector T) []
      = Res.ok () ⟨3, P, [(0, ⟨some A, .cached⟩), (1, ⟨some B, .cached⟩),
          (2, ⟨some Cv, .cached⟩)]⟩
        [(index_to_lookup_key P 0, aB), (index_to_lookup_key P 1, bB),
          (index_to_lookup_key P 2, cB)]
        [StorageOp.write (index_to_lookup_key P 0) aB,
          StorageOp.write (index_to_lookup_key P 1) bB,
          StorageOp.write (index_to_lookup_key P 2) cB] := by
    simp [flush, flushLoop, CacheEntry.new_modified, CacheEntry.replace_state,
      hsA, hsB, hsC, storageWrite, k01, k02, k12]
  have hg0 : get cd (Vector.reconstruct P 3)
      [(index_to_lookup_key P 0, aB), (index_to_lookup_key P 1, bB),
        (index_to_lookup_key P 2, cB)] 0
      = Res.ok (some A) ⟨3, P, [(0, ⟨some A, .cached⟩)]⟩
        [(index_to_lookup_key P 0, aB), (index_to_lookup_key P 1, bB),
          (index_to_lookup_key P 2, cB)]
        [StorageOp.read (index_to_lookup_key P 0)] := by
    simp [get, load, Vector.reconstruct, cacheGet, storageRead, hdA, cacheInsert,
      CacheEntry.new_cached]
  have hg1 : get cd (⟨3, P, [(0, ⟨some A, .cached⟩)]⟩ : Vector T)
      [(index_to_lookup_key P 0, aB), (index_to_lookup_key P 1, bB),
        (index_to_lookup_key P 2, cB)] 1
      = Res.ok (some B) ⟨3, P, [(0, ⟨some A, .cached⟩), (1, ⟨some B, .cached⟩)]⟩
        [(index_to_lookup_key P 0, aB), (index_to_lookup_key P 1, bB),
          (index_to_lookup_key P 2, cB)]
        [StorageOp.read (index_to_lookup_key P 1)] := by
    simp [get, load, cacheGet, storageRead, k01, hdB, cacheInsert, CacheEntry.new_cached]
  have hg2 : get cd (⟨3, P, [(0, ⟨some A, .cached⟩), (1, ⟨some B, .cached⟩)]⟩ : Vector T)
      [(index_to_lookup_key P 0, aB), (index_to_lookup_key P 1, bB),
        (index_to_lookup_key P 2, cB)] 2
      = Res.ok (some Cv) ⟨3, P, [(0, ⟨some A, .cached⟩), (1, ⟨some B, .cached⟩),
          (2, ⟨some Cv, .cached⟩)]⟩
        [(index_to_lookup_key P 0, aB), (index_to_lookup_key P 1, bB),
          (index_to_lookup_key P 2, cB)]
        [StorageOp.read (index_to_lookup_key P 2)] := by
    simp [get, load, cacheGet, storageRead, k02, k12, hdC, cacheInsert, CacheEntry.new_cached]
  have hg3 : get cd (⟨3, P, [(0, ⟨some A, .cached⟩), (1, ⟨some B, .cached⟩),
        (2, ⟨some Cv, .cached⟩)]⟩ : Vector T)
      [(index_to_lookup_key P 0, aB), (index_to_lookup_key P 1, bB),
        (index_to_lookup_key P 2, cB)] 3
      = Res.ok none ⟨3, P, [(0, ⟨some A, .cached⟩), (1, ⟨some B, .cached⟩),
          (2, ⟨some Cv, .cached⟩), (3, ⟨none, .cached⟩)]⟩
        [(index_to_lookup_key P 0, aB), (index_to_lookup_key P 1, bB),
          (index_to_lookup_key P 2, cB)]
        [StorageOp.read (index_to_lookup_key P 3)] := by
    simp [get, load, cacheGet, storageRead, k03, k13, k23, cacheInsert, CacheEntry.new_cached]
  refine ⟨_, _, _, _,
    ⟨3, P, [(0, ⟨some A, .cached⟩), (1, ⟨some B, .cached⟩), (2, ⟨some Cv, .cached⟩),
      (3, ⟨none, .cached⟩)]⟩,
    [StorageOp.read (index_to_lookup_key P 0), StorageOp.read (index_to_lookup_key P 1),
      StorageOp.read (index_to_lookup_key P 2), StorageOp.read (index_to_lookup_key P 3)],
    hext', hfl, ?_⟩
  simp [getSeq, hg0, hg1, hg2, hg3]

theorem C3_persistence_round_trip_witness :
    (cdNat.ser 1 = some [1] ∧ cdNat.deser [1] = some 1)
    ∧ ∃ st1 st2 sto2 tr2 st3 tr3,
        extend (Vector.new [9]) [] [1, 2, 3] = Res.ok () st1 [] []
        ∧ flush cdNat st1 [] = Res.ok () st2 sto2 tr2
        ∧ getSeq cdNat (Vector.reconstruct [9] 3) sto2 [0, 1, 2, 3]
            = Res.ok [some 1, some 2, some 3, none] st3 sto2 tr3 :=
  ⟨⟨by decide, by decide⟩,
    C3_persistence_round_trip [9] 1 2 3 [1] [2] [3] (by decide) (by decide) (by decide)
      (by decide) (by decide) (by decide)⟩

end NearVec

namespace NearVec

variable {T : Type}

/-- The storage half of the key-space invariant: no live storage entry at any
key encoded from this collection's prefix and an index `≥ length`. -/
def storageDeadAbove (st : Vector T) (sto : Storage) : Prop :=
  ∀ j, j < u32Mod → st.len ≤ j → storageRead sto (index_to_lookup_key st.pfx j) = none

/-- A state falsifying C6 as stated: empty storage (so the claimed storage
invariant holds), but a cache entry with a present value at index 5 ≥ len. -/
def vecC6 : Vector Nat := ⟨0, [], [(5, ⟨some 7, .modified⟩)]⟩

/-- C6 counterexample: the claim conditions only on storage.  On `vecC6`
(length 0, empty storage — the storage invariant holds trivially) `get 5`
returns `some 7` from the cache, not the empty result the claim demands. -/
theorem C6_get_oob_counterexample :
    storageDeadAbove vecC6 [] ∧ vecC6.len ≤ 5
    ∧ get cdNat vecC6 [] 5 = Res.ok (some 7) vecC6 [] [] :=
  ⟨fun j _ _ => rfl, by decide, by decide⟩

/-- C6 (amended): for `i ≥ length` (a `u32`), if storage holds no live entry
at any key of this prefix at an index `≥ length` *and the cache holds no
present value at index `i`*, then `get i` returns the empty result and never
fails fatally (storage unchanged). -/
theorem C6_get_oob_amended {cd : Codec T} {st : Vector T} {sto : Storage} {i : Nat}
    (hi : st.len ≤ i) (hiu : i < u32Mod) (hdead : storageDeadAbove st sto)
    (hcache : ∀ e, cacheGet st.cache i = some e → e.value = none) :
    ∃ st' tr, get cd st sto i = Res.ok none st' sto tr := by
  cases hc : cacheGet st.cache i with
  | some e =>
    have hv := hcache e hc
    exact ⟨st, [], by simp [get, load, hc, hv]⟩
  | none =>
    have hr : storageRead sto (index_to_lookup_key st.pfx i) = none := hdead i hiu hi
    exact ⟨{ st with cache := cacheInsert st.cache i (CacheEntry.new_cached none) },
      [StorageOp.read (index_to_lookup_key st.pfx i)],
      by simp [get, load, hc, hr, CacheEntry.new_cached]⟩

theorem C6_get_oob_amended_witness :
    (vecW2.len ≤ 9 ∧ 9 < u32Mod ∧ storageDeadAbove vecW2 []
      ∧ (∀ e : CacheEntry Nat, cacheGet vecW2.cache 9 = some e → e.value = none))
    ∧ ∃ st' tr, get cdNat vecW2 [] 9 = Res.ok none st' [] tr :=
  ⟨⟨by decide, by decide, fun j _ _ => rfl, fun e h => by simp [vecW2, cacheGet] at h⟩,
    C6_get_oob_amended (by decide) (by decide) (fun j _ _ => rfl)
      (fun e h => by simp [vecW2, cacheGet] at h)⟩

/-- A state falsifying C10 as stated: index 5 ≥ len is already in the cache. -/
def vecC10 : Vector Nat := ⟨0, [], [(5, ⟨none, .cached⟩)]⟩

/-- C10 counterexample: on a cache hit, `get` at an out-of-range index makes
zero storage reads (empty trace) and inserts nothing (state unchanged),
contradicting the claim that every such `get` issues one storage read and
inserts a fresh entry. -/
theorem C10_get_oob_counterexample :
    vecC10.len ≤ 5 ∧ get cdNat vecC10 [] 5 = Res.ok none vecC10 [] [] :=
  ⟨by decide, by decide⟩

/-- C10 (amended): for `i ≥ length` *not yet present in the cache*, `get i`
is not a pure read: it issues exactly one storage read, inserts a `Cached`
entry holding the read outcome at index `i` (absent when storage is empty
there), that entry is still in the cache when `get` returns, every other
cache slot is untouched, and length and storage are unchanged. -/
theorem C10_get_oob_miss_amended {cd : Codec T} {st : Vector T} {sto : Storage} {i : Nat}
    {w : Option T} (hi : st.len ≤ i) (hmiss : cacheGet st.cache i = none)
    (hres : logicalVal cd st sto i = some w) :
    get cd st sto i = Res.ok w
        { st with cache := cacheInsert st.cache i (CacheEntry.new_cached w) } sto
        [StorageOp.read (index_to_lookup_key st.pfx i)]
    ∧ cacheGet (cacheInsert st.cache i (CacheEntry.new_cached w)) i
        = some (CacheEntry.new_cached w)
    ∧ (∀ j, j ≠ i →
        cacheGet (cacheInsert st.cache i (CacheEntry.new_cached w)) j = cacheGet st.cache j)
    ∧ (storageRead sto (index_to_lookup_key st.pfx i) = none → w = none) := by
  cases hr : storageRead sto (index_to_lookup_key st.pfx i) with
  | some raw =>
    cases hd : cd.deser raw with
    | some v =>
      have hw : some v = w := by
        simp only [logicalVal, hmiss, hr, hd] at hres
        exact Option.some.inj hres
      subst hw
      exact ⟨by simp [get, load, hmiss, hr, hd, CacheEntry.new_cached], by simp,
        fun j hj => cacheGet_cacheInsert_ne _ _ hj, fun hcon => Option.noConfusion hcon⟩
    | none =>
      exfalso
      simp [logicalVal, hmiss, hr, hd] at hres
  | none =>
    have hw : (none : Option T) = w := by
      simp only [logicalVal, hmiss, hr] at hres
      exact Option.some.inj hres
    subst hw
    exact ⟨by simp [get, load, hmiss, hr, CacheEntry.new_cached], by simp,
      fun j hj => cacheGet_cacheInsert_ne _ _ hj, fun _ => rfl⟩

theorem C10_get_oob_miss_amended_witness :
    (vecW2.len ≤ 9 ∧ cacheGet vecW2.cache 9 = none
      ∧ logicalVal cdNat vecW2 [] 9 = some none)
    ∧ (get cdNat vecW2 [] 9 = Res.ok none
        { vecW2 with cache := cacheInsert vecW2.cache 9 (CacheEntry.new_cached none) } []
        [StorageOp.read (index_to_lookup_key vecW2.pfx 9)]
      ∧ cacheGet (cacheInsert vecW2.cache 9 (CacheEntry.new_cached none)) 9
          = some (CacheEntry.new_cached none)
      ∧ (∀ j, j ≠ 9 →
          cacheGet (cacheInsert vecW2.cache 9 (CacheEntry.new_cached none)) j
            = cacheGet vecW2.cache j)
      ∧ (storageRead [] (index_to_lookup_key vecW2.pfx 9) = none → (none : Option Nat) = none)) :=
  ⟨⟨by decide, by decide, by decide⟩,
    C10_get_oob_miss_amended (by decide) (by decide) (by decide)⟩

end NearVec

namespace NearVec

variable {T : Type}

/-- A one-element collection whose element is persisted (cache empty). -/
def vecC9 : Vector Nat := ⟨1, [], []⟩

/-- Storage holding the persisted element of `vecC9` at index 0. -/
def stoC9 : Storage := [([0, 0, 0, 0], [7])]

theorem u32ToLeBytes_inj {i j : Nat} (hi : i < u32Mod) (hj : j < u32Mod)
    (h : u32ToLeBytes i = u32ToLeBytes j) : i = j := by
  simp only [u32ToLeBytes, List.cons.injEq, and_true] at h
  simp only [u32Mod] at hi hj
  omega

theorem index_key_inj {P : Bytes} {i j : Nat} (hi : i < u32Mod) (hj : j < u32Mod)
    (h : index_to_lookup_key P i = index_to_lookup_key P j) : i = j :=
  u32ToLeBytes_inj hi hj (List.append_cancel_left h)

theorem storageRead_storageWrite (s : Storage) (k k' v : Bytes) :
    storageRead (storageWrite s k v) k' = if k = k' then some v else storageRead s k' := by
  induction s with
  | nil => simp [storageWrite, storageRead]
  | cons p rest ih =>
    obtain ⟨k0, v0⟩ := p
    by_cases h0 : k0 = k
    · subst h0
      by_cases h1 : k0 = k'
      · subst h1
        simp [storageWrite, storageRead]
      · simp [storageWrite, storageRead, h1]
    · by_cases h1 : k0 = k'
      · subst h1
        have hne : ¬ k = k0 := fun hx => h0 hx.symm
        simp [storageWrite, storageRead, h0, hne]
      · simp [storageWrite, storageRead, h0, h1, ih]

theorem storageRead_storageRemove (s : Storage) (k k' : Bytes) :
    storageRead (storageRemove s k) k' = if k = k' then none else storageRead s k' := by
  induction s with
  | nil => simp [storageRemove, storageRead]
  | cons p rest ih =>
    obtain ⟨k0, v0⟩ := p
    by_cases h0 : k0 = k
    · subst h0
      by_cases h1 : k0 = k'
      · subst h1
        simp [storageRemove, storageRead, ih]
      · simp [storageRemove, storageRead, h1, ih]
    · by_cases h1 : k0 = k'
      · subst h1
        have hne : ¬ k = k0 := fun hx => h0 hx.symm
        simp [storageRemove, storageRead, h0, hne]
      · simp [storageRemove, storageRead, h0, h1, ih]

theorem cacheSortedB_cons : ∀ (x : Nat × CacheEntry T) (l : Cache T),
    cacheSortedB (x :: l) = true ↔ (∀ p ∈ l, x.1 < p.1) ∧ cacheSortedB l = true := by
  intro x l
  induction l generalizing x with
  | nil => simp [cacheSortedB]
  | cons y l2 ih =>
    constructor
    · intro h
      have h1 : x.1 < y.1 ∧ cacheSortedB (y :: l2) = true := by
        simpa [cacheSortedB, Bool.and_eq_true] using h
      obtain ⟨hxy, hy⟩ := h1
      have hrest := (ih y).mp hy
      refine ⟨?_, hy⟩
      intro p hp
      rcases List.mem_cons.mp hp with rfl | hp2
      · exact hxy
      · exact Nat.lt_trans hxy (hrest.1 p hp2)
    · intro hh
      have hxy : x.1 < y.1 := hh.1 y (by simp)
      simpa [cacheSortedB, Bool.and_eq_true] using ⟨hxy, hh.2⟩

theorem cacheGet_mem {c : Cache T} {i : Nat} {e : CacheEntry T}
    (h : cacheGet c i = some e) : (i, e) ∈ c := by
  induction c with
  | nil => cases h
  | cons p rest ih =>
    obtain ⟨j, e'⟩ := p
    by_cases hj : j = i
    · subst hj
      simp only [cacheGet, if_pos rfl] at h
      cases h
      exact List.mem_cons_self _ _
    · simp only [cacheGet, if_neg hj] at h
      exact List.mem_cons_of_mem _ (ih h)

theorem mem_cacheInsert {c : Cache T} {i : Nat} {e : CacheEntry T} {p : Nat × CacheEntry T}
    (hp : p ∈ cacheInsert c i e) : p = (i, e) ∨ p ∈ c := by
  induction c with
  | nil => simpa [cacheInsert] using hp
  | cons q rest ih =>
    obtain ⟨j, e'⟩ := q
    by_cases h1 : i < j
    · simp only [cacheInsert, if_pos h1] at hp
      rcases List.mem_cons.mp hp with rfl | hp2
      · exact Or.inl rfl
      · exact Or.inr hp2
    · by_cases h2 : i = j
      · simp only [cacheInsert, if_neg h1, if_pos h2] at hp
        rcases List.mem_cons.mp hp with rfl | hp2
        · exact Or.inl rfl
        · exact Or.inr (List.mem_cons_of_mem _ hp2)
      · simp only [cacheInsert, if_neg h1, if_neg h2] at hp
        rcases List.mem_cons.mp hp with rfl | hp2
        · exact Or.inr (List.mem_cons_self _ _)
        · rcases ih hp2 with h | h
          · exact Or.inl h
          · exact Or.inr (List.mem_cons_of_mem _ h)

theorem mem_cacheInsert_sorted {c : Cache T} (hs : cacheSortedB c = true) {i : Nat}
    {e : CacheEntry T} {p : Nat × CacheEntry T} (hp : p ∈ cacheInsert c i e) :
    p = (i, e) ∨ (p ∈ c ∧ p.1 ≠ i) := by
  induction c with
  | nil =>
    simp only [cacheInsert] at hp
    rcases List.mem_singleton.mp hp with rfl
    exact Or.inl rfl
  | cons q rest ih =>
    obtain ⟨j, e'⟩ := q
    obtain ⟨hall, hrest⟩ := (cacheSortedB_cons (j, e') rest).mp hs
    by_cases h1 : i < j
    · simp only [cacheInsert, if_pos h1] at hp
      rcases List.mem_cons.mp hp with rfl | hp2
      · exact Or.inl rfl
      · rcases List.mem_cons.mp hp2 with rfl | hp3
        · exact Or.inr ⟨List.mem_cons_self _ _, by simp; omega⟩
        · have : j < p.1 := hall p hp3
          exact Or.inr ⟨List.mem_cons_of_mem _ hp3, by omega⟩
    · by_cases h2 : i = j
      · subst h2
        simp only [cacheInsert, if_neg h1, if_pos rfl] at hp
        rcases List.mem_cons.mp hp with rfl | hp2
        · exact Or.inl rfl
        · have : i < p.1 := hall p hp2
          exact Or.inr ⟨List.mem_cons_of_mem _ hp2, by omega⟩
      · simp only [cacheInsert, if_neg h1, if_neg h2] at hp
        rcases List.mem_cons.mp hp with rfl | hp2
        · exact Or.inr ⟨List.mem_cons_self _ _, by simp; exact fun hx => h2 hx.symm⟩
        · rcases ih hrest hp2 with h | ⟨hm, hne⟩
          · exact Or.inl h
          · exact Or.inr ⟨List.mem_cons_of_mem _ hm, hne⟩

theorem cacheSortedB_cacheInsert {c : Cache T} (hs : cacheSortedB c = true) (i : Nat)
    (e : CacheEntry T) : cacheSortedB (cacheInsert c i e) = true := by
  induction c with
  | nil => simp [cacheInsert, cacheSortedB]
  | cons q rest ih =>
    obtain ⟨j, e'⟩ := q
    obtain ⟨hall, hrest⟩ := (cacheSortedB_cons (j, e') rest).mp hs
    by_cases h1 : i < j
    · simp only [cacheInsert, if_pos h1]
      refine (cacheSortedB_cons _ _).mpr ⟨?_, hs⟩
      intro p hp
      rcases List.mem_cons.mp hp with rfl | hp2
      · exact h1
      · exact Nat.lt_trans h1 (hall p hp2)
    · by_cases h2 : i = j
      · subst h2
        simp only [cacheInsert, if_neg h1, if_pos rfl]
        exact (cacheSortedB_cons _ _).mpr ⟨hall, hrest⟩
      · simp only [cacheInsert, if_neg h1, if_neg h2]
        refine (cacheSortedB_cons _ _).mpr ⟨?_, ih hrest⟩
        intro p hp
        rcases mem_cacheInsert hp with rfl | hp2
        · simp
          omega
        · exact hall p hp2

end NearVec

namespace NearVec

variable {T : Type}

/-- C9 counterexample: `pop` on a one-element collection whose element is
persisted (and whose storage satisfies the claimed invariant) completes with
length 0 but leaves the storage entry at index 0 live — it only records the
removal in the cache as `Modified`/absent, deferring the storage removal to
the next flush.  So the key-space invariant as stated fails after `pop`. -/
theorem C9_keyspace_counterexample :
    storageDeadAbove vecC9 stoC9
    ∧ pop cdNat vecC9 stoC9
        = Res.ok (some 7) ⟨0, [], [(0, ⟨none, .modified⟩)]⟩ stoC9 [StorageOp.read [0, 0, 0, 0]]
    ∧ ¬ storageDeadAbove (⟨0, [], [(0, ⟨none, .modified⟩)]⟩ : Vector Nat) stoC9 := by
  refine ⟨?_, by decide, ?_⟩
  · intro j hj hj1
    simp only [u32Mod] at hj
    simp only [vecC9] at hj1
    simp only [vecC9, stoC9, index_to_lookup_key, append_slice, u32ToLeBytes,
      List.nil_append, storageRead]
    rw [if_neg ?_]
    intro hx
    simp only [List.cons.injEq, and_true] at hx
    omega
  · intro h
    exact absurd (h 0 (by decide) (by decide)) (by decide)

/-- The cache-side precondition of the amended key-space invariant: every
cache entry at an index `≥ length` holds an absent value. -/
def cacheAbsentAbove (st : Vector T) : Prop :=
  ∀ p ∈ st.cache, st.len ≤ p.1 → p.2.value = none

/-- The well-formedness the implementation maintains and the amended C9
assumes: length fits `u32`, the cache is a strictly sorted `u32`-keyed map,
storage is dead above `length`, and cache entries above `length` are
value-less. -/
def Inv (st : Vector T) (sto : Storage) : Prop :=
  st.len ≤ u32Max ∧ cacheSortedB st.cache = true
    ∧ (∀ p ∈ st.cache, p.1 < u32Mod)
    ∧ storageDeadAbove st sto
    ∧ cacheAbsentAbove st

/-- The amended key-space condition after an operation: cache entries above
`length` are value-less, and every live storage entry at an index `≥ length`
is masked by a `Modified` value-less cache entry (which the next flush
removes). -/
def Masked (st : Vector T) (sto : Storage) : Prop :=
  cacheAbsentAbove st
  ∧ ∀ j, j < u32Mod → st.len ≤ j →
      storageRead sto (index_to_lookup_key st.pfx j) ≠ none →
      ∃ e, cacheGet st.cache j = some e ∧ e.state = EntryState.modified ∧ e.value = none

theorem inv_masked {st : Vector T} {sto : Storage} (h : Inv st sto) : Masked st sto :=
  ⟨h.2.2.2.2, fun j hj hlen hne => absurd (h.2.2.2.1 j hj hlen) hne⟩

/-- Case analysis of a successful `load`: storage, length and prefix are
unchanged, and either it was a cache hit (state unchanged) or a miss that
inserted a freshly `Cached` entry, whose value is absent when storage is
empty at the key. -/
theorem load_ok_cases {cd : Codec T} {st : Vector T} {sto : Storage} {i : Nat}
    {e : CacheEntry T} {st' : Vector T} {sto' : Storage} {tr : List StorageOp}
    (h : load cd st sto i = Res.ok e st' sto' tr) :
    sto' = sto ∧ st'.len = st.len ∧ st'.pfx = st.pfx
    ∧ ((cacheGet st.cache i = some e ∧ st' = st)
      ∨ (cacheGet st.cache i = none ∧ e.state = EntryState.cached
          ∧ st'.cache = cacheInsert st.cache i e
          ∧ (storageRead sto (index_to_lookup_key st.pfx i) = none → e.value = none))) := by
  cases hc : cacheGet st.cache i with
  | some e0 =>
    simp only [load, hc] at h
    cases h
    exact ⟨rfl, rfl, rfl, Or.inl ⟨rfl, rfl⟩⟩
  | none =>
    cases hr : storageRead sto (index_to_lookup_key st.pfx i) with
    | some raw =>
      cases hd : cd.deser raw with
      | some v =>
        simp only [load, hc, hr, hd] at h
        cases h
        exact ⟨rfl, rfl, rfl, Or.inr ⟨rfl, rfl, rfl,
          fun hcon => Option.noConfusion hcon⟩⟩
      | none =>
        simp only [load, hc, hr, hd] at h
        cases h
    | none =>
      simp only [load, hc, hr] at h
      cases h
      exact ⟨rfl, rfl, rfl, Or.inr ⟨rfl, rfl, rfl, fun _ => rfl⟩⟩

/-- After `removeRange`, every key of an index below the bound reads empty. -/
theorem storageRead_removeRange_lt (pfx : Bytes) (sto : Storage) :
    ∀ (n j : Nat), j < n →
    storageRead (removeRange pfx sto n).1 (index_to_lookup_key pfx j) = none := by
  intro n
  induction n with
  | zero => intro j hj; omega
  | succ m ih =>
    intro j hj
    by_cases hjm : j = m
    · subst hjm
      simp [removeRange, storageRead_storageRemove]
    · have hlt : j < m := by omega
      simp only [removeRange, storageRead_storageRemove]
      by_cases hk : index_to_lookup_key pfx m = index_to_lookup_key pfx j
      · simp [hk]
      · rw [if_neg hk]
        exact ih j hlt

/-- `removeRange` never turns an empty read into a live one. -/
theorem storageRead_removeRange_none (pfx : Bytes) (sto : Storage) (k : Bytes)
    (h : storageRead sto k = none) :
    ∀ n, storageRead (removeRange pfx sto n).1 k = none := by
  intro n
  induction n with
  | zero => exact h
  | succ m ih =>
    simp only [removeRange, storageRead_storageRemove]
    by_cases hk : index_to_lookup_key pfx m = k
    · simp [hk]
    · rw [if_neg hk]
      exact ih

/-- The flush loop keys its writes and removals to cache entries; a key that
reads empty and is not the key of any `Modified` entry with a present value
still reads empty afterwards. -/
theorem flushLoop_dead {cd : Codec T} {pfx : Bytes} :
    ∀ {c : Cache T} {sto : Storage} {c' : Cache T} {sto' : Storage} {tr : List StorageOp}
    (k : Bytes), flushLoop cd pfx c sto = FlushRes.ok c' sto' tr →
    storageRead sto k = none →
    (∀ p ∈ c, p.2.state = EntryState.modified → p.2.value ≠ none →
      index_to_lookup_key pfx p.1 ≠ k) →
    storageRead sto' k = none := by
  intro c
  induction c with
  | nil =>
    intro sto c' sto' tr k h hnone _
    simp only [flushLoop] at h
    cases h
    exact hnone
  | cons p rest ih =>
    intro sto c' sto' tr k h hnone hw
    obtain ⟨j, e⟩ := p
    by_cases hstate : e.state = EntryState.modified
    · cases hv : e.value with
      | some v =>
        cases hser : cd.ser v with
        | some raw =>
          simp only [flushLoop, if_pos hstate, hv, hser] at h
          cases hrec : flushLoop cd pfx rest
              (storageWrite sto (index_to_lookup_key pfx j) raw) with
          | ok c2 sto2 tr2 =>
            rw [hrec] at h
            cases h
            have hkj : index_to_lookup_key pfx j ≠ k :=
              hw (j, e) (List.mem_cons_self _ _) hstate (by simp [hv])
            refine ih k hrec ?_ (fun q hq => hw q (List.mem_cons_of_mem _ hq))
            rw [storageRead_storageWrite, if_neg hkj]
            exact hnone
          | fatal tr2 => rw [hrec] at h; cases h
        | none =>
          simp only [flushLoop, if_pos hstate, hv, hser] at h
          cases h
      | none =>
        simp only [flushLoop, if_pos hstate, hv] at h
        cases hrec : flushLoop cd pfx rest
            (storageRemove sto (index_to_lookup_key pfx j)) with
        | ok c2 sto2 tr2 =>
          rw [hrec] at h
          cases h
          refine ih k hrec ?_ (fun q hq => hw q (List.mem_cons_of_mem _ hq))
          rw [storageRead_storageRemove]
          by_cases hkj : index_to_lookup_key pfx j = k
          · simp [hkj]
          · rw [if_neg hkj]
            exact hnone
        | fatal tr2 => rw [hrec] at h; cases h
    · simp only [flushLoop, if_neg hstate] at h
      cases hrec : flushLoop cd pfx rest sto with
      | ok c2 sto2 tr2 =>
        rw [hrec] at h
        cases h
        exact ih k hrec hnone (fun q hq => hw q (List.mem_cons_of_mem _ hq))
      | fatal tr2 => rw [hrec] at h; cases h

end NearVec

namespace NearVec

variable {T : Type}

theorem u32Max_lt_u32Mod : u32Max < u32Mod := by decide

/-- A successful `load` at a `u32` index preserves the full invariant. -/
theorem load_inv {cd : Codec T} {st : Vector T} {sto : Storage} (hinv : Inv st sto)
    {i : Nat} {e : CacheEntry T} {st' : Vector T} {sto' : Storage} {tr : List StorageOp}
    (hiu : i < u32Mod) (h : load cd st sto i = Res.ok e st' sto' tr) :
    sto' = sto ∧ st'.len = st.len ∧ st'.pfx = st.pfx ∧ Inv st' sto := by
  obtain ⟨rfl, hlen, hpfx, hcase⟩ := load_ok_cases h
  refine ⟨rfl, hlen, hpfx, ?_⟩
  rcases hcase with ⟨_, rfl⟩ | ⟨hmiss, hstate, hcache, himpl⟩
  · exact hinv
  · refine ⟨by rw [hlen]; exact hinv.1,
      by rw [hcache]; exact cacheSortedB_cacheInsert hinv.2.1 _ _, ?_, ?_, ?_⟩
    · intro p hp
      rw [hcache] at hp
      rcases mem_cacheInsert hp with rfl | hp2
      · exact hiu
      · exact hinv.2.2.1 p hp2
    · intro j hj hlenj
      rw [hpfx]
      exact hinv.2.2.2.1 j hj (by rw [hlen] at hlenj; exact hlenj)
    · intro p hp hple
      rw [hcache] at hp
      rcases mem_cacheInsert_sorted hinv.2.1 hp with rfl | ⟨hp2, _⟩
      · exact himpl (hinv.2.2.2.1 i hiu (by rw [hlen] at hple; exact hple))
      · exact hinv.2.2.2.2 p hp2 (by rw [hlen] at hple; exact hple)

/-- Inserting any entry at an in-range index preserves the full invariant. -/
theorem inv_insert_lt {st : Vector T} {sto : Storage} (hinv : Inv st sto) {i : Nat}
    (hi : i < st.len) (e : CacheEntry T) :
    Inv { st with cache := cacheInsert st.cache i e } sto := by
  refine ⟨hinv.1, cacheSortedB_cacheInsert hinv.2.1 _ _, ?_, hinv.2.2.2.1, ?_⟩
  · intro p hp
    rcases mem_cacheInsert hp with rfl | hp2
    · have h1 : st.len ≤ u32Max := hinv.1
      have h2 := u32Max_lt_u32Mod
      omega
    · exact hinv.2.2.1 p hp2
  · intro p hp hple
    rcases mem_cacheInsert_sorted hinv.2.1 hp with rfl | ⟨hp2, _⟩
    · exact absurd hple (Nat.not_le.mpr hi)
    · exact hinv.2.2.2.2 p hp2 hple

theorem get_masked {cd : Codec T} {st : Vector T} {sto : Storage} (hinv : Inv st sto)
    {i : Nat} {w : Option T} {st' : Vector T} {sto' : Storage} {tr : List StorageOp}
    (hiu : i < u32Mod) (h : get cd st sto i = Res.ok w st' sto' tr) : Masked st' sto' := by
  cases hl : load cd st sto i with
  | ok e st1 sto1 tr1 =>
    simp only [get, hl] at h
    cases h
    obtain ⟨rfl, _, _, hinv1⟩ := load_inv hinv hiu hl
    exact inv_masked hinv1
  | fatal k1 tr1 => simp only [get, hl] at h; cases h

theorem set_inv {st : Vector T} {sto : Storage} (hinv : Inv st sto)
    {i : Nat} {v : T} {st' : Vector T} {sto' : Storage} {tr : List StorageOp}
    (h : set st sto i v = Res.ok () st' sto' tr) :
    sto' = sto ∧ Inv st' sto := by
  by_cases hle : st.len ≤ i
  · simp only [set, if_pos hle] at h
    cases h
  · simp only [set, if_neg hle] at h
    have hi : i < st.len := by omega
    cases hc : cacheGet st.cache i with
    | some e =>
      rw [hc] at h
      cases h
      exact ⟨rfl, inv_insert_lt hinv hi _⟩
    | none =>
      rw [hc] at h
      cases h
      exact ⟨rfl, inv_insert_lt hinv hi _⟩

theorem push_inv {st : Vector T} {sto : Storage} (hinv : Inv st sto)
    {v : T} {st' : Vector T} {sto' : Storage} {tr : List StorageOp}
    (h : push st sto v = Res.ok () st' sto' tr) :
    sto' = sto ∧ Inv st' sto := by
  by_cases hmax : u32Max ≤ st.len
  · simp only [push, if_pos hmax] at h
    cases h
  · simp only [push, if_neg hmax] at h
    have hinv1 : Inv { st with len := st.len + 1 } sto := by
      refine ⟨by simp; omega, hinv.2.1, hinv.2.2.1, ?_, ?_⟩
      · intro j hj hlenj
        exact hinv.2.2.2.1 j hj (by simp at hlenj; omega)
      · intro p hp hple
        exact hinv.2.2.2.2 p hp (by simp at hple; omega)
    exact set_inv hinv1 h

end NearVec

namespace NearVec

variable {T : Type}

theorem pop_masked {cd : Codec T} {st : Vector T} {sto : Storage} (hinv : Inv st sto)
    {w : Option T} {st' : Vector T} {sto' : Storage} {tr : List StorageOp}
    (h : pop cd st sto = Res.ok w st' sto' tr) : Masked st' sto' := by
  by_cases hz : st.len = 0
  · have hpop : pop cd st sto = Res.ok none st sto [] := by
      simp only [pop, if_pos hz]
    rw [hpop] at h
    cases h
    exact inv_masked hinv
  · cases hl : load cd { st with len := st.len - 1 } sto (st.len - 1) with
    | ok e st2 sto2 tr2 =>
      cases hv : e.value with
      | some v =>
        have hpop : pop cd st sto = Res.ok (some v)
            { st2 with cache := cacheInsert st2.cache (st.len - 1) (e.replace none).2 }
            sto2 tr2 := by
          simp only [pop, if_neg hz, hl, hv]
        rw [hpop] at h
        cases h
        obtain ⟨rfl, hlen2, hpfx2, hcase⟩ := load_ok_cases hl
        have hlen2' : st2.len = st.len - 1 := hlen2
        have hpfx2' : st2.pfx = st.pfx := hpfx2
        have hsorted2 : cacheSortedB st2.cache = true := by
          rcases hcase with ⟨_, rfl⟩ | ⟨_, _, hcache, _⟩
          · exact hinv.2.1
          · rw [hcache]
            exact cacheSortedB_cacheInsert hinv.2.1 _ _
        refine ⟨?_, ?_⟩
        · intro p hp hple
          rcases mem_cacheInsert_sorted hsorted2 hp with rfl | ⟨hmem, hne⟩
          · rfl
          · have hple' : st2.len ≤ p.1 := hple
            have hp1 : st.len ≤ p.1 := by omega
            rcases hcase with ⟨_, rfl⟩ | ⟨_, _, hcache, _⟩
            · exact hinv.2.2.2.2 p hmem hp1
            · rw [hcache] at hmem
              rcases mem_cacheInsert_sorted hinv.2.1 hmem with rfl | ⟨hmem2, _⟩
              · exact absurd rfl hne
              · exact hinv.2.2.2.2 p hmem2 hp1
        · intro j hj hlenj hne
          have hlenj' : st2.len ≤ j := hlenj
          by_cases hjl : j = st.len - 1
          · subst hjl
            exact ⟨(e.replace none).2, cacheGet_cacheInsert_self _ _ _, rfl, rfl⟩
          · have hjge : st.len ≤ j := by omega
            rw [hpfx2'] at hne
            exact absurd (hinv.2.2.2.1 j hj hjge) hne
      | none =>
        have hpop : pop cd st sto = Res.fatal PanicKind.inconsistentState tr2 := by
          simp only [pop, if_neg hz, hl, hv]
        rw [hpop] at h
        cases h
    | fatal k2 tr2 =>
      have hpop : pop cd st sto = Res.fatal k2 tr2 := by
        simp only [pop, if_neg hz, hl]
      rw [hpop] at h
      cases h

theorem swap_inv {cd : Codec T} {st : Vector T} {sto : Storage} (hinv : Inv st sto)
    {a b : Nat} {st' : Vector T} {sto' : Storage} {tr : List StorageOp}
    (h : swap cd st sto a b = Res.ok () st' sto' tr) :
    sto' = sto ∧ st'.len = st.len ∧ st'.pfx = st.pfx ∧ Inv st' sto := by
  by_cases hbound : st.len ≤ a ∨ st.len ≤ b
  · have hsw : swap cd st sto a b = Res.fatal PanicKind.indexOutOfBounds [] := by
      simp only [swap, if_pos hbound]
    rw [hsw] at h
    cases h
  · obtain ⟨hna, hnb⟩ := not_or.mp hbound
    have ha : a < st.len := by omega
    have hb : b < st.len := by omega
    have hau : a < u32Mod := by
      have h1 : st.len ≤ u32Max := hinv.1
      have h2 := u32Max_lt_u32Mod
      omega
    have hbu : b < u32Mod := by
      have h1 : st.len ≤ u32Max := hinv.1
      have h2 := u32Max_lt_u32Mod
      omega
    by_cases hab : a = b
    · have hsw : swap cd st sto a b = Res.ok () st sto [] := by
        simp only [swap, if_neg hbound, if_pos hab]
      rw [hsw] at h
      cases h
      exact ⟨rfl, rfl, rfl, hinv⟩
    · cases hla : load cd st sto a with
      | ok ea st1 sto1 tr1 =>
        cases hlb : load cd st1 sto1 b with
        | ok eb st2 sto2 tr2 =>
          cases hva : ea.value with
          | none =>
            cases hvb : eb.value with
            | none =>
              have hsw : swap cd st sto a b
                  = Res.fatal PanicKind.inconsistentState (tr1 ++ tr2) := by
                simp only [swap, if_neg hbound, if_neg hab, hla, hlb, hva, hvb]
              rw [hsw] at h
              cases h
            | some vb =>
              have hsw : swap cd st sto a b
                  = Res.fatal PanicKind.inconsistentState (tr1 ++ tr2) := by
                simp only [swap, if_neg hbound, if_neg hab, hla, hlb, hva, hvb]
              rw [hsw] at h
              cases h
          | some va =>
            cases hvb : eb.value with
            | none =>
              have hsw : swap cd st sto a b
                  = Res.fatal PanicKind.inconsistentState (tr1 ++ tr2) := by
                simp only [swap, if_neg hbound, if_neg hab, hla, hlb, hva, hvb]
              rw [hsw] at h
              cases h
            | some vb =>
              have hsw : swap cd st sto a b = Res.ok ()
                  { st2 with cache := cacheInsert (cacheInsert st2.cache a ⟨some vb, .modified⟩) b ⟨some va, .modified⟩ } sto2 (tr1 ++ tr2) := by
                simp only [swap, if_neg hbound, if_neg hab, hla, hlb, hva, hvb]
              rw [hsw] at h
              cases h
              obtain ⟨rfl, hlen1, hpfx1, hinv1⟩ := load_inv hinv hau hla
              obtain ⟨rfl, hlen2, hpfx2, hinv2⟩ := load_inv hinv1 hbu hlb
              have ha2 : a < st2.len := by omega
              have hinv3 := inv_insert_lt hinv2 ha2 (⟨some vb, .modified⟩ : CacheEntry T)
              have hb3 : b < st2.len := by omega
              have hinv4 := inv_insert_lt hinv3 hb3 (⟨some va, .modified⟩ : CacheEntry T)
              exact ⟨rfl, by rw [hlen2, hlen1], by rw [hpfx2, hpfx1], hinv4⟩
        | fatal k2 tr2 =>
          have hsw : swap cd st sto a b = Res.fatal k2 (tr1 ++ tr2) := by
            simp only [swap, if_neg hbound, if_neg hab, hla, hlb]
          rw [hsw] at h
          cases h
      | fatal k1 tr1 =>
        have hsw : swap cd st sto a b = Res.fatal k1 tr1 := by
          simp only [swap, if_neg hbound, if_neg hab, hla]
        rw [hsw] at h
        cases h

theorem swap_remove_masked {cd : Codec T} {st : Vector T} {sto : Storage} (hinv : Inv st sto)
    {i : Nat} {v : T} {st' : Vector T} {sto' : Storage} {tr : List StorageOp}
    (h : swap_remove cd st sto i = Res.ok v st' sto' tr) : Masked st' sto' := by
  by_cases hz : st.len = 0
  · have he : swap_remove cd st sto i = Res.fatal PanicKind.indexOutOfBounds [] := by
      simp only [swap_remove, if_pos hz]
    rw [he] at h
    cases h
  · cases hsw : swap cd st sto i (st.len - 1) with
    | ok u st1 sto1 tr1 =>
      cases hp : pop cd st1 sto1 with
      | ok wp st2 sto2 tr2 =>
        cases wp with
        | some vp =>
          have he : swap_remove cd st sto i = Res.ok vp st2 sto2 (tr1 ++ tr2) := by
            simp only [swap_remove, if_neg hz, hsw, hp]
          rw [he] at h
          cases h
          obtain ⟨rfl, _, _, hinv1⟩ := swap_inv hinv hsw
          exact pop_masked hinv1 hp
        | none =>
          have he : swap_remove cd st sto i
              = Res.fatal PanicKind.inconsistentState (tr1 ++ tr2) := by
            simp only [swap_remove, if_neg hz, hsw, hp]
          rw [he] at h
          cases h
      | fatal k2 tr2 =>
        have he : swap_remove cd st sto i = Res.fatal k2 (tr1 ++ tr2) := by
          simp only [swap_remove, if_neg hz, hsw, hp]
        rw [he] at h
        cases h
    | fatal k1 tr1 =>
      have he : swap_remove cd st sto i = Res.fatal k1 tr1 := by
        simp only [swap_remove, if_neg hz, hsw]
      rw [he] at h
      cases h

theorem clear_masked {st : Vector T} {sto : Storage} (hinv : Inv st sto)
    {st' : Vector T} {sto' : Storage} {tr : List StorageOp}
    (h : clear st sto = Res.ok () st' sto' tr) : Masked st' sto' := by
  simp only [clear] at h
  cases h
  refine ⟨?_, ?_⟩
  · intro p hp _
    exact absurd hp (List.not_mem_nil p)
  · intro j hj _ hne
    exfalso
    apply hne
    by_cases hjl : j < st.len
    · exact storageRead_removeRange_lt st.pfx sto st.len j hjl
    · exact storageRead_removeRange_none st.pfx sto _
        (hinv.2.2.2.1 j hj (by omega)) st.len

theorem flush_masked {cd : Codec T} {st : Vector T} {sto : Storage} (hinv : Inv st sto)
    {st' : Vector T} {sto' : Storage} {tr : List StorageOp}
    (h : flush cd st sto = Res.ok () st' sto' tr) : Masked st' sto' := by
  unfold flush at h
  cases hfl : flushLoop cd st.pfx st.cache sto with
  | ok c2 sto2 tr2 =>
    rw [hfl] at h
    cases h
    obtain ⟨hc, _⟩ := flushLoop_ok_spec hfl
    refine ⟨?_, ?_⟩
    · intro p hp hple
      subst hc
      obtain ⟨q, hq, rfl⟩ := List.mem_map.mp hp
      exact hinv.2.2.2.2 q hq hple
    · intro j hj hlenj hne
      exfalso
      apply hne
      refine flushLoop_dead _ hfl (hinv.2.2.2.1 j hj hlenj) ?_
      intro p hp hmod hvne hkeq
      have hp1u : p.1 < u32Mod := hinv.2.2.1 p hp
      have hp1j : p.1 = j := index_key_inj hp1u hj hkeq
      have hlenj' : st.len ≤ j := hlenj
      exact hvne (hinv.2.2.2.2 p hp (by omega))
  | fatal tr2 => rw [hfl] at h; cases h

end NearVec

namespace NearVec

variable {T : Type}

/-- C9 (amended): for a collection whose state is well-formed (`Inv`: length
fits `u32`, sorted `u32`-keyed cache, storage dead at indices `≥ length`, and
cache entries at indices `≥ length` value-less), after any single operation
(`get`, `set`, `push`, `pop`, `swap`, `swap_remove`, `clear`, `flush`)
completes, every index `≥` the new length is dead in the key-space sense:
any cache entry there is value-less and any live storage entry there is
masked by a `Modified` value-less cache entry, which the next flush removes
(`Masked`).  The unamended claim — that storage itself is already dead at
indices `≥ length` — fails for `pop`, which defers its storage removal to
flush (see the counterexample). -/
theorem C9_keyspace_amended {cd : Codec T} {st : Vector T} {sto : Storage} (hinv : Inv st sto) :
    (∀ i w st' sto' tr, i < u32Mod → get cd st sto i = Res.ok w st' sto' tr → Masked st' sto')
    ∧ (∀ i v st' sto' tr, set st sto i v = Res.ok () st' sto' tr → Masked st' sto')
    ∧ (∀ v st' sto' tr, push st sto v = Res.ok () st' sto' tr → Masked st' sto')
    ∧ (∀ w st' sto' tr, pop cd st sto = Res.ok w st' sto' tr → Masked st' sto')
    ∧ (∀ a b st' sto' tr, swap cd st sto a b = Res.ok () st' sto' tr → Masked st' sto')
    ∧ (∀ i v st' sto' tr, swap_remove cd st sto i = Res.ok v st' sto' tr → Masked st' sto')
    ∧ (∀ st' sto' tr, clear st sto = Res.ok () st' sto' tr → Masked st' sto')
    ∧ (∀ st' sto' tr, flush cd st sto = Res.ok () st' sto' tr → Masked st' sto') := by
  refine ⟨?_, ?_, ?_, ?_, ?_, ?_, ?_, ?_⟩
  · intro i w st' sto' tr hiu h
    exact get_masked hinv hiu h
  · intro i v st' sto' tr h
    obtain ⟨rfl, hinv'⟩ := set_inv hinv h
    exact inv_masked hinv'
  · intro v st' sto' tr h
    obtain ⟨rfl, hinv'⟩ := push_inv hinv h
    exact inv_masked hinv'
  · intro w st' sto' tr h
    exact pop_masked hinv h
  · intro a b st' sto' tr h
    obtain ⟨rfl, _, _, hinv'⟩ := swap_inv hinv h
    exact inv_masked hinv'
  · intro i v st' sto' tr h
    exact swap_remove_masked hinv h
  · intro st' sto' tr h
    exact clear_masked hinv h
  · intro st' sto' tr h
    exact flush_masked hinv h

theorem C9_keyspace_amended_witness :
    Inv vecW2 ([] : Storage)
    ∧ ((∀ i w st' sto' tr, i < u32Mod →
          get cdNat vecW2 [] i = Res.ok w st' sto' tr → Masked st' sto')
      ∧ (∀ i v st' sto' tr, set vecW2 [] i v = Res.ok () st' sto' tr → Masked st' sto')
      ∧ (∀ v st' sto' tr, push vecW2 [] v = Res.ok () st' sto' tr → Masked st' sto')
      ∧ (∀ w st' sto' tr, pop cdNat vecW2 [] = Res.ok w st' sto' tr → Masked st' sto')
      ∧ (∀ a b st' sto' tr, swap cdNat vecW2 [] a b = Res.ok () st' sto' tr → Masked st' sto')
      ∧ (∀ i v st' sto' tr, swap_remove cdNat vecW2 [] i = Res.ok v st' sto' tr → Masked st' sto')
      ∧ (∀ st' sto' tr, clear vecW2 [] = Res.ok () st' sto' tr → Masked st' sto')
      ∧ (∀ st' sto' tr, flush cdNat vecW2 [] = Res.ok () st' sto' tr → Masked st' sto')) :=
  ⟨⟨by decide, by decide, by decide, fun j _ _ => rfl, by unfold cacheAbsentAbove; decide⟩,
    C9_keyspace_amended
      ⟨by decide, by decide, by decide, fun j _ _ => rfl, by unfold cacheAbsentAbove; decide⟩⟩

end NearVec
